import Mathlib

/-!
Verification of the pdfkit object serializer and text flow engine
(src/js/pdfkit.es5.js) against its natural-language specification.

The JavaScript source is shallowly embedded: numeric quantities are
modelled as rationals where the source divides (justification, number
rounding) and as naturals where only comparisons and sums occur
(widths, byte offsets); byte output is modelled as lists of characters;
fallible operations return Except.
-/

namespace PDFKit

/-! ## PDFObject.number (source lines 4727-4733)

JS numbers are modelled as `Option ℚ`: `none` stands for NaN, for which
every JS comparison is false, so NaN falls through to the throw branch.
`Math.round` is round-half-up, which is Mathlib's `round`. -/

/-- `PDFObject.number`: values strictly between -1e21 and 1e21 are rounded
to 6 decimal places via `Math.round(n * 1e6) / 1e6`; everything else
(including NaN) raises `unsupported number`. -/
def pdfObjectNumber (n : Option ℚ) : Except String ℚ :=
  match n with
  | some q =>
    if -(10 ^ 21 : ℚ) < q ∧ q < (10 ^ 21 : ℚ) then
      Except.ok (((round (q * 10 ^ 6) : ℤ) : ℚ) / 10 ^ 6)
    else
      Except.error ("unsupported number: " ++ toString q)
  | none => Except.error "unsupported number: NaN"

/-! ## Justification (TextMixin._fragment, source lines 7644-7650, 7687)
and last-line suppression (LineWrapper lastLine handler, lines 7097-7110) -/

/-- The extra inter-word spacing computed for `align: 'justify'`:
`Math.max(0, (lineWidth - textWidth) / Math.max(1, words.length - 1) - spaceWidth)`,
where `textWidth` measures the text with all whitespace removed and
`spaceWidth` is the width of a space plus character spacing. -/
def fragmentJustifyWordSpacing (lineWidth textWidthNoSpaces : ℚ) (wordCount : ℕ)
    (spaceWidth : ℚ) : ℚ :=
  max 0 ((lineWidth - textWidthNoSpaces) / max 1 ((wordCount : ℚ) - 1) - spaceWidth)

/-- The rendered width of a fragment (source line 7687):
`textWidth + wordSpacing * (wordCount - 1) + characterSpacing * (text.length - 1)`. -/
def fragmentRenderedWidth (textWidth wordSpacing characterSpacing : ℚ)
    (wordCount textLen : ℕ) : ℚ :=
  textWidth + wordSpacing * ((wordCount : ℚ) - 1)
    + characterSpacing * ((textLen : ℚ) - 1)

/-- The `lastLine` handler (source lines 7097-7102): on the final line of a
paragraph an `align` of `justify` is replaced by `left`. -/
def lastLineAlign (align : String) : String :=
  if align = "justify" then "left" else align

/-- C7: for every numeric value, `PDFObject.number` returns the value rounded
to 6 decimal places when it lies strictly inside (-1e21, 1e21) — the result is
an integer multiple of 10⁻⁶ within half of 10⁻⁶ of the input — and raises a
hard error for every value outside that range, including NaN. -/
theorem number_rounds_inside_range_and_errors_outside :
    (∀ q : ℚ, -(10 ^ 21) < q → q < 10 ^ 21 →
      pdfObjectNumber (some q)
          = Except.ok (((round (q * 10 ^ 6) : ℤ) : ℚ) / 10 ^ 6) ∧
      |(((round (q * 10 ^ 6) : ℤ) : ℚ) / 10 ^ 6) - q| ≤ 1 / (2 * 10 ^ 6) ∧
      (((round (q * 10 ^ 6) : ℤ) : ℚ) / 10 ^ 6) * 10 ^ 6
          = ((round (q * 10 ^ 6) : ℤ) : ℚ)) ∧
    (∀ q : ℚ, q ≤ -(10 ^ 21) ∨ 10 ^ 21 ≤ q →
      ∃ msg, pdfObjectNumber (some q) = Except.error msg) ∧
    (∃ msg, pdfObjectNumber none = Except.error msg) := by
  refine ⟨fun q h1 h2 => ⟨?_, ?_, ?_⟩, fun q h => ?_, ⟨_, rfl⟩⟩
  · simp only [pdfObjectNumber]
    rw [if_pos ⟨h1, h2⟩]
  · have hb : |((round (q * 10 ^ 6) : ℤ) : ℚ) - q * 10 ^ 6| ≤ 1 / 2 := by
      rw [abs_sub_comm]
      exact abs_sub_round (q * 10 ^ 6)
    have key : ((round (q * 10 ^ 6) : ℤ) : ℚ) / 10 ^ 6 - q
        = (((round (q * 10 ^ 6) : ℤ) : ℚ) - q * 10 ^ 6) / 10 ^ 6 := by
      field_simp
      ring
    rw [key, abs_div]
    rw [show |(10 ^ 6 : ℚ)| = 10 ^ 6 by norm_num]
    have h3 : |((round (q * 10 ^ 6) : ℤ) : ℚ) - q * 10 ^ 6| / 10 ^ 6
        ≤ (1 / 2) / 10 ^ 6 := by
      apply div_le_div_of_nonneg_right hb <;> norm_num
    refine h3.trans ?_
    norm_num
  · field_simp
  · have hcond : ¬(-(10 ^ 21 : ℚ) < q ∧ q < 10 ^ 21) := by
      rcases h with h | h
      · exact fun hc => absurd hc.1 (not_lt.mpr h)
      · exact fun hc => absurd hc.2 (not_lt.mpr h)
    refine ⟨"unsupported number: " ++ toString q, ?_⟩
    simp only [pdfObjectNumber]
    rw [if_neg hcond]

/-- Witness for C7 at the concrete input 1. -/
theorem number_rounds_inside_range_and_errors_outside_witness :
    pdfObjectNumber (some 1)
        = Except.ok (((round ((1 : ℚ) * 10 ^ 6) : ℤ) : ℚ) / 10 ^ 6) :=
  (number_rounds_inside_range_and_errors_outside.1 1 (by norm_num) (by norm_num)).1

/-- C5: on a justified line with at least two words the computed extra
spacing makes the measured width plus `(wordCount - 1)` times the extra
spacing equal the target line width (exactly, over ℚ); with one word the
extra spacing contributes nothing to the rendered width; and the
`lastLine` handler suppresses justification, degrading to left alignment. -/
theorem justify_spacing_sums_to_line_width :
    (∀ lw tw sw : ℚ, ∀ wc : ℕ, 2 ≤ wc → tw + ((wc : ℚ) - 1) * sw ≤ lw →
      (tw + ((wc : ℚ) - 1) * sw)
          + ((wc : ℚ) - 1) * fragmentJustifyWordSpacing lw tw wc sw = lw) ∧
    (∀ tw cs : ℚ, ∀ textLen : ℕ, ∀ e : ℚ,
      fragmentRenderedWidth tw e cs 1 textLen
          = fragmentRenderedWidth tw 0 cs 1 textLen) ∧
    (lastLineAlign "justify" = "left" ∧
      ∀ a, a ≠ "justify" → lastLineAlign a = a) := by
  refine ⟨fun lw tw sw wc hwc hfit => ?_, fun tw cs textLen e => ?_, rfl,
    fun a ha => if_neg ha⟩
  · have hc1 : (1 : ℚ) ≤ (wc : ℚ) - 1 := by
      have : (2 : ℚ) ≤ (wc : ℚ) := by exact_mod_cast hwc
      linarith
    have hc0 : (0 : ℚ) < (wc : ℚ) - 1 := by linarith
    have hmax : max 1 ((wc : ℚ) - 1) = (wc : ℚ) - 1 := max_eq_right hc1
    have hval : fragmentJustifyWordSpacing lw tw wc sw
        = (lw - tw) / ((wc : ℚ) - 1) - sw := by
      unfold fragmentJustifyWordSpacing
      rw [hmax]
      refine max_eq_right ?_
      rw [sub_nonneg, le_div_iff hc0]
      nlinarith
    rw [hval]
    field_simp
  · unfold fragmentRenderedWidth
    norm_num

/-- Witness for C5: line width 100, no-space text width 30, three words of
base space width 5 give extra spacing that fills the line exactly. -/
theorem justify_spacing_sums_to_line_width_witness :
    ((30 : ℚ) + ((3 : ℕ) - 1 : ℚ) * 5)
        + (((3 : ℕ) : ℚ) - 1) * fragmentJustifyWordSpacing 100 30 3 5 = 100 :=
  justify_spacing_sums_to_line_width.1 100 30 5 3 (by norm_num) (by norm_num)

/-! ## Page buffering: bufferedPageRange / switchToPage
(PDFDocument, source lines 8643-8654)

Pages are identified by abstract ids (ℕ).  JS array indexing with a
possibly negative index yields `undefined`, modelled by `jsIndex`. -/

structure PageBuffer where
  pageBufferStart : ℤ
  pageBuffer : List ℕ
  page : ℕ

/-- JS semantics of `array[i]` for an integer index: `undefined` (none)
for a negative or out-of-range index. -/
def jsIndex (l : List ℕ) (i : ℤ) : Option ℕ :=
  if 0 ≤ i then l[i.toNat]? else none

/-- `bufferedPageRange()`: the retained window start and count. -/
def bufferedPageRange (d : PageBuffer) : ℤ × ℕ :=
  (d.pageBufferStart, d.pageBuffer.length)

/-- The error message thrown by `switchToPage` (source line 8650). -/
def switchToPageErr (n start : ℤ) (len : ℕ) : String :=
  "switchToPage(" ++ toString n ++ ") out of bounds, current buffer covers pages "
    ++ toString start ++ " to " ++ toString (start + (len : ℤ) - 1)

/-- The error message decomposes around the offending index. -/
theorem switchToPageErr_around_index (n start : ℤ) (len : ℕ) :
    (switchToPageErr n start len).data
      = ("switchToPage(").data ++ ((toString n).data
        ++ (") out of bounds, current buffer covers pages "
            ++ toString start ++ " to " ++ toString (start + (len : ℤ) - 1)).data) := by
  simp only [switchToPageErr, String.data_append, List.append_assoc]

/-- The error message decomposes around the valid range. -/
theorem switchToPageErr_around_range (n start : ℤ) (len : ℕ) :
    (switchToPageErr n start len).data
      = ("switchToPage(" ++ toString n
          ++ ") out of bounds, current buffer covers pages ").data
        ++ ((toString start ++ " to " ++ toString (start + (len : ℤ) - 1)).data
          ++ []) := by
  simp only [switchToPageErr, String.data_append, List.append_assoc, List.append_nil]

/-- `switchToPage(n)`: looks up `pageBuffer[n - pageBufferStart]`; if present
makes it the current page and returns it, otherwise throws. -/
def switchToPage (d : PageBuffer) (n : ℤ) : PageBuffer × Except String ℕ :=
  match jsIndex d.pageBuffer (n - d.pageBufferStart) with
  | some p => ({ d with page := p }, Except.ok p)
  | none =>
      (d, Except.error (switchToPageErr n d.pageBufferStart d.pageBuffer.length))

/-- C8: `switchToPage n` returns the buffered page and makes it current
exactly when `n` lies in the window `[start, start + count)` reported by
`bufferedPageRange`; outside that window it errors with a message containing
the offending index and the valid range, leaving the current page unchanged. -/
theorem switchToPage_in_window_iff :
    ∀ (d : PageBuffer) (n : ℤ),
      ((bufferedPageRange d).1 ≤ n →
        n < (bufferedPageRange d).1 + (bufferedPageRange d).2 →
        ∃ p, d.pageBuffer[(n - d.pageBufferStart).toNat]? = some p ∧
          switchToPage d n = ({ d with page := p }, Except.ok p)) ∧
      (n < (bufferedPageRange d).1 ∨
          (bufferedPageRange d).1 + (bufferedPageRange d).2 ≤ n →
        switchToPage d n
            = (d, Except.error
                (switchToPageErr n d.pageBufferStart d.pageBuffer.length)) ∧
        (∃ a b, (switchToPageErr n d.pageBufferStart d.pageBuffer.length).data
            = a ++ ((toString n).data ++ b)) ∧
        (∃ a b, (switchToPageErr n d.pageBufferStart d.pageBuffer.length).data
            = a ++ ((toString d.pageBufferStart ++ " to "
                  ++ toString (d.pageBufferStart + (d.pageBuffer.length : ℤ) - 1)).data
                ++ b))) := by
  intro d n
  constructor
  · intro hlo hhi
    simp only [bufferedPageRange] at hlo hhi
    have h0 : 0 ≤ n - d.pageBufferStart := by omega
    have hidx : (n - d.pageBufferStart).toNat < d.pageBuffer.length := by omega
    refine ⟨d.pageBuffer[(n - d.pageBufferStart).toNat], ?_, ?_⟩
    · exact List.getElem?_eq_getElem hidx
    · unfold switchToPage jsIndex
      rw [if_pos h0, List.getElem?_eq_getElem hidx]
  · intro hout
    simp only [bufferedPageRange] at hout
    have hnone : jsIndex d.pageBuffer (n - d.pageBufferStart) = none := by
      unfold jsIndex
      rcases hout with h | h
      · rw [if_neg (by omega)]
      · rw [if_pos (by omega)]
        exact List.getElem?_eq_none (by omega)
    refine ⟨?_, ?_, ?_⟩
    · unfold switchToPage
      rw [hnone]
    · exact ⟨_, _, switchToPageErr_around_index n d.pageBufferStart d.pageBuffer.length⟩
    · exact ⟨_, _, switchToPageErr_around_range n d.pageBufferStart d.pageBuffer.length⟩

/-- Witness for C8: a two-page buffer starting at page 3; page 4 is in the
window and becomes current, page 7 is rejected. -/
theorem switchToPage_in_window_iff_witness :
    (∃ p, ([10, 20] : List ℕ)[((4 : ℤ) - 3).toNat]? = some p ∧
      switchToPage ⟨3, [10, 20], 10⟩ 4
          = ({ pageBufferStart := 3, pageBuffer := [10, 20], page := p },
              Except.ok p)) ∧
    switchToPage ⟨3, [10, 20], 10⟩ 7
        = (⟨3, [10, 20], 10⟩, Except.error (switchToPageErr 7 3 2)) := by
  constructor
  · exact (switchToPage_in_window_iff ⟨3, [10, 20], 10⟩ 4).1 (by decide) (by decide)
  · exact ((switchToPage_in_window_iff ⟨3, [10, 20], 10⟩ 7).2 (by decide)).1

/-! ## Ellipsis truncation (LineWrapper.wrap, source lines 7245-7262)

`buffer.replace(/\s+$/, '')` strips trailing whitespace; the loop drops one
trailing character (`slice(0, -1)`) and re-strips until `buffer + ellipsis`
fits or the buffer is empty; the ellipsis is appended only if it fits.
Widths are supplied by the `wordWidth` collaborator, modelled as an
arbitrary function to ℕ. -/

/-- `s.replace(/\s+$/, '')`: remove trailing whitespace characters. -/
def rstrip (s : List Char) : List Char :=
  (s.reverse.dropWhile (fun c => c.isWhitespace)).reverse

theorem rstrip_length_le (s : List Char) : (rstrip s).length ≤ s.length := by
  unfold rstrip
  rw [List.length_reverse]
  calc (s.reverse.dropWhile (fun c => c.isWhitespace)).length
      ≤ s.reverse.length := (List.dropWhile_sublist _).length_le
    _ = s.length := List.length_reverse s

/-- The `while (buffer && textWidth > lineWidth)` loop: drop the last
character and re-strip trailing whitespace until `buffer + ellipsis` fits
or the buffer is empty. -/
def ellipsisShrink (ww : List Char → ℕ) (lineWidth : ℕ) (ell buffer : List Char) :
    List Char :=
  if _h : buffer = [] ∨ ww (buffer ++ ell) ≤ lineWidth then buffer
  else ellipsisShrink ww lineWidth ell (rstrip buffer.dropLast)
termination_by buffer.length
decreasing_by
  simp only [not_or] at _h
  have h1 : (rstrip buffer.dropLast).length ≤ buffer.dropLast.length :=
    rstrip_length_le _
  have h2 : buffer.dropLast.length = buffer.length - 1 := List.length_dropLast _
  have h3 : 0 < buffer.length := List.length_pos.mpr _h.1
  omega

/-- The buffer produced by the ellipsis-truncation step of `wrap`: strip
trailing whitespace, shrink until `buffer + ellipsis` fits or the buffer is
empty, then append the ellipsis only if it fits. -/
def ellipsisResult (ww : List Char → ℕ) (lineWidth : ℕ)
    (ell buffer0 : List Char) : List Char :=
  if ww (ellipsisShrink ww lineWidth ell (rstrip buffer0) ++ ell) ≤ lineWidth then
    ellipsisShrink ww lineWidth ell (rstrip buffer0) ++ ell
  else
    ellipsisShrink ww lineWidth ell (rstrip buffer0)

/-- The full ellipsis-truncation step: the final buffer and its recomputed
text width (`textWidth = this.wordWidth(buffer)` at line 7262). -/
def truncateWithEllipsis (ww : List Char → ℕ) (lineWidth : ℕ)
    (ell buffer0 : List Char) : List Char × ℕ :=
  (ellipsisResult ww lineWidth ell buffer0, ww (ellipsisResult ww lineWidth ell buffer0))

theorem ellipsisShrink_spec (ww : List Char → ℕ) (lineWidth : ℕ)
    (ell buffer : List Char) :
    ellipsisShrink ww lineWidth ell buffer = [] ∨
      ww (ellipsisShrink ww lineWidth ell buffer ++ ell) ≤ lineWidth := by
  induction buffer using ellipsisShrink.induct ww lineWidth ell with
  | case1 buffer h =>
      rw [ellipsisShrink, dif_pos h]
      exact h
  | case2 buffer h ih =>
      rw [ellipsisShrink, dif_neg h]
      exact ih

/-- C6: whenever ellipsis truncation is engaged, the resulting line either
ends with the ellipsis marker and measures at most the line width, or is
empty (contains no ellipsis marker at all). -/
theorem ellipsis_fits_or_omitted (ww : List Char → ℕ) (lineWidth : ℕ)
    (ell buffer0 : List Char) :
    ((∃ pre, (truncateWithEllipsis ww lineWidth ell buffer0).1 = pre ++ ell) ∧
      (truncateWithEllipsis ww lineWidth ell buffer0).2 ≤ lineWidth) ∨
    (truncateWithEllipsis ww lineWidth ell buffer0).1 = [] := by
  by_cases hfit : ww (ellipsisShrink ww lineWidth ell (rstrip buffer0) ++ ell) ≤ lineWidth
  · left
    have hres : ellipsisResult ww lineWidth ell buffer0
        = ellipsisShrink ww lineWidth ell (rstrip buffer0) ++ ell := by
      unfold ellipsisResult
      rw [if_pos hfit]
    refine ⟨⟨ellipsisShrink ww lineWidth ell (rstrip buffer0), ?_⟩, ?_⟩
    · show ellipsisResult ww lineWidth ell buffer0 = _
      exact hres
    · show ww (ellipsisResult ww lineWidth ell buffer0) ≤ lineWidth
      rw [hres]
      exact hfit
  · right
    rcases ellipsisShrink_spec ww lineWidth ell (rstrip buffer0) with h | h
    · show ellipsisResult ww lineWidth ell buffer0 = []
      unfold ellipsisResult
      rw [if_neg hfit]
      exact h
    · exact absurd h hfit

/-! ## PDFReference: write / finalize with compression
(source lines 4741-4806)

Chunks are byte lists (string chunks are converted to bytes with a trailing
newline before reaching `write`, as in `new Buffer(chunk + '\n', 'binary')`).
The deflate collaborator is an arbitrary function on byte lists. -/

structure PDFRef where
  id : ℕ
  gen : ℕ
  dataLength : Option ℕ
  dataFilter : Option String
  compress : Bool
  uncompressedLength : ℕ
  buffer : List (List ℕ)

/-- The `PDFReference` constructor (lines 4742-4754):
`compress = document.compress && !data.Filter`. -/
def mkRef (docCompress : Bool) (id : ℕ) (dataFilter : Option String) : PDFRef :=
  { id := id, gen := 0, dataLength := none, dataFilter := dataFilter,
    compress := docCompress && dataFilter.isNone,
    uncompressedLength := 0, buffer := [] }

/-- `PDFReference.write` (lines 4756-4770): accumulate the chunk, add its
length to `data.Length` (initialising it to 0 first), and if compressing
set `data.Filter = 'FlateDecode'`. -/
def refWrite (r : PDFRef) (chunk : List ℕ) : PDFRef :=
  { r with
    uncompressedLength := r.uncompressedLength + chunk.length,
    buffer := r.buffer ++ [chunk],
    dataLength := some ((r.dataLength.getD 0) + chunk.length),
    dataFilter := if r.compress then some "FlateDecode" else r.dataFilter }

/-- What `PDFReference.finalize` (lines 4779-4802) emits for one object:
the header ids, the dictionary snapshot as serialized by
`PDFObject.convert(this.data)` at line 4784 — which happens *before* the
buffer is deflated at line 4789 — and the stream bytes written between
`stream` and `endstream`. -/
structure EmittedRef where
  headerId : ℕ
  headerGen : ℕ
  dictLength : Option ℕ
  dictFilter : Option String
  hasStream : Bool
  stream : List ℕ

def refFinalizeEmit (deflate : List ℕ → List ℕ) (r : PDFRef) : EmittedRef :=
  { headerId := r.id, headerGen := r.gen,
    dictLength := r.dataLength,
    dictFilter := r.dataFilter,
    hasStream := r.buffer.length ≠ 0,
    stream :=
      if r.buffer.length ≠ 0 then
        (if r.compress then deflate r.buffer.flatten else r.buffer.flatten)
      else [] }

/-- For every compressed stream: the emitted stream bytes are the deflate of
the concatenated chunks (so an inverse inflate recovers the accumulated
buffer), but the Length in the emitted dictionary is the *uncompressed*
total, because the dictionary is serialized before `deflateSync` runs. -/
theorem refFinalizeEmit_stream_and_length (deflate : List ℕ → List ℕ)
    (chunks : List (List ℕ)) (id : ℕ) (hne : chunks ≠ []) :
    (refFinalizeEmit deflate (chunks.foldl refWrite (mkRef true id none))).stream
        = deflate (chunks.flatten) ∧
    (refFinalizeEmit deflate (chunks.foldl refWrite (mkRef true id none))).dictLength
        = some (chunks.flatten).length := by
  have hgen : ∀ (r : PDFRef) (cs : List (List ℕ)),
      (cs.foldl refWrite r).compress = r.compress ∧
      (cs.foldl refWrite r).buffer = r.buffer ++ cs ∧
      (cs.foldl refWrite r).dataLength
          = (if cs = [] then r.dataLength
             else some ((r.dataLength.getD 0) + (cs.flatten).length)) := by
    intro r cs
    induction cs generalizing r with
    | nil => simp
    | cons c rest ih =>
        obtain ⟨h1, h2, h3⟩ := ih (refWrite r c)
        refine ⟨h1, ?_, ?_⟩
        · rw [List.foldl_cons, h2]
          simp [refWrite]
        · rw [List.foldl_cons, h3]
          rcases Decidable.em (rest = []) with hr | hr <;>
            simp [refWrite, hr, Nat.add_assoc]
  obtain ⟨h1, h2, h3⟩ := hgen (mkRef true id none) chunks
  constructor
  · unfold refFinalizeEmit
    rw [h1, h2]
    simp [mkRef, hne]
  · unfold refFinalizeEmit
    rw [h3]
    simp [mkRef, hne]

/-- A toy compression collaborator whose output is three bytes long. -/
def toyDeflate (_input : List ℕ) : List ℕ := [0, 1, 2]

/-- C3 (refuted on the code): with compression enabled, the emitted stream is
the deflate of the accumulated buffer, but the Length declared in the emitted
dictionary is the *uncompressed* byte count: `PDFObject.convert(this.data)`
(line 4784) runs before `zlib.deflateSync` updates `data.Length` (lines
4789-4790).  Concretely, a single 100-byte write compressed to 3 bytes is
emitted with `/Length 100`. -/
theorem stream_declared_length_is_uncompressed :
    (refFinalizeEmit toyDeflate (refWrite (mkRef true 1 none) (List.replicate 100 97))).stream
        = toyDeflate (List.replicate 100 97) ∧
    (refFinalizeEmit toyDeflate (refWrite (mkRef true 1 none) (List.replicate 100 97))).stream.length
        = 3 ∧
    (refFinalizeEmit toyDeflate (refWrite (mkRef true 1 none) (List.replicate 100 97))).dictLength
        = some 100 := by
  refine ⟨?_, ?_, ?_⟩ <;> rfl

/-! ## PDFDocument: offsets, pending counter, end / _refEnd / _finalize
(source lines 8667-8697, 8721-8778)

Output is a byte (character) list; `_write(data)` appends `data + '\n'` and
advances the cumulative `_offset`.  `_waiting` follows the JS number and is
an integer (it can be driven below zero by extra `_refEnd`s).  Per-object
serialized bodies (dictionary and stream section) are abstracted as opaque
payloads; the object header, `endobj`, and the whole finalize tail are
modelled byte-exactly. -/

structure DocM where
  offsets : List (Option ℕ)
  waiting : ℤ
  ended : Bool
  offset : ℕ
  out : List Char
  rootId : ℕ
  infoId : ℕ
  finalizeCount : ℕ

/-- `_write(data)` for a string argument: append `data + '\n'`. -/
def docWrite (d : DocM) (s : String) : DocM :=
  { d with out := d.out ++ (s.data ++ ['\n']), offset := d.offset + (s.length + 1) }

/-- `_write(data)` for a Buffer argument: append the bytes as they are. -/
def docWriteRaw (d : DocM) (payload : List Char) : DocM :=
  { d with out := d.out ++ payload, offset := d.offset + payload.length }

/-- JS string coercion of an offsets-array slot (`null` if never set). -/
def jsOffsetStr : Option ℕ → String
  | none => "null"
  | some n => toString n

/-- `('0000000000' + offset).slice(-10)`. -/
def sliceLastTen (s : String) : String :=
  String.mk (s.data.drop (s.data.length - 10))

/-- One xref entry line (without the newline), source lines 8760-8761. -/
def xrefEntry (o : Option ℕ) : String :=
  sliceLastTen ("0000000000" ++ jsOffsetStr o) ++ " 00000 n "

/-- `PDFObject.convert({Size, Root, Info})` as written by `_finalize`. -/
def trailerDict (size rootId infoId : ℕ) : String :=
  "<<\n/Size " ++ toString size ++ "\n/Root " ++ toString rootId
    ++ " 0 R\n/Info " ++ toString infoId ++ " 0 R\n>>"

/-- The lines of the cross-reference table: the fixed free-object line
(line 8757) followed by one entry per allocated id, in id order (lines
8759-8762). -/
def xrefTableLines (offsets : List (Option ℕ)) : List String :=
  "0000000000 65535 f " :: offsets.map xrefEntry

/-- Everything `_finalize` (lines 8752-8778) appends to the output: the
xref header, the table lines, the trailer, the startxref offset and the
EOF marker (each `_write` adds one newline). -/
def finalizeTail (offsets : List (Option ℕ)) (xRefOffset : ℕ)
    (rootId infoId : ℕ) : String :=
  "xref\n" ++ ("0 " ++ toString (offsets.length + 1) ++ "\n")
    ++ String.join ((xrefTableLines offsets).map (fun l => l ++ "\n"))
    ++ "trailer\n" ++ (trailerDict (offsets.length + 1) rootId infoId ++ "\n")
    ++ "startxref\n" ++ (toString xRefOffset ++ "\n")
    ++ "%%EOF\n"

/-- `_finalize`: append the xref/trailer tail and close. -/
def docFinalize (d : DocM) : DocM :=
  { d with
    out := d.out ++ (finalizeTail d.offsets d.offset d.rootId d.infoId).data,
    offset := d.offset + (finalizeTail d.offsets d.offset d.rootId d.infoId).length,
    finalizeCount := d.finalizeCount + 1 }

/-- `_refEnd(ref)` (lines 8691-8697): record the offset at id − 1, decrement
the pending counter, and when it reaches zero with `_ended` set, run
`_finalize` and clear `_ended`. -/
def docRefEnd (d : DocM) (id : ℕ) (off : ℕ) : DocM :=
  if d.waiting - 1 = 0 ∧ d.ended = true then
    { docFinalize { d with offsets := d.offsets.set (id - 1) (some off),
                           waiting := d.waiting - 1 } with
      ended := false }
  else
    { d with offsets := d.offsets.set (id - 1) (some off),
             waiting := d.waiting - 1 }

/-- `"<id> <gen> obj"`. -/
def refHeader (id gen : ℕ) : String :=
  toString id ++ " " ++ toString gen ++ " obj"

/-- The body of a `PDFReference.finalize` deferred task (lines 4780-4801):
record the current offset, write the header, the serialized body (abstracted
as an opaque payload), `endobj`, then `_refEnd`. -/
def docRefFinalize (d : DocM) (id : ℕ) (payload : List Char) : DocM :=
  docRefEnd (docWrite (docWriteRaw (docWrite d (refHeader id 0)) payload) "endobj")
    id d.offset

/-- The tail of `PDFDocument.end` (lines 8745-8749): finalize immediately
when nothing is pending, otherwise set `_ended`.  (The page flushing and
info/root finalization earlier in `end()` are separate alloc/finalize
events.) -/
def docEnd (d : DocM) : DocM :=
  if d.waiting = 0 then docFinalize d else { d with ended := true }

/-- `ref(data)` (lines 8667-8672): allocate id `offsets.length + 1`, push a
`null` offset placeholder, increment the pending counter. -/
def docAlloc (d : DocM) : DocM × ℕ :=
  ({ d with offsets := d.offsets ++ [none], waiting := d.waiting + 1 },
    d.offsets.length + 1)

/-- Events of the document lifecycle: an allocation, a deferred object
finalize (with its abstract serialized body), or the `end()` call. -/
inductive DocEv where
  | alloc : DocEv
  | refFin : ℕ → List Char → DocEv
  | endDoc : DocEv

def docStep (d : DocM) : DocEv → DocM
  | .alloc => (docAlloc d).1
  | .refFin id payload => docRefFinalize d id payload
  | .endDoc => docEnd d

def docRun (d : DocM) (evs : List DocEv) : DocM :=
  evs.foldl docStep d

def countEnds (evs : List DocEv) : ℕ :=
  (evs.filter (fun e => match e with | .endDoc => true | _ => false)).length

@[simp] theorem docWrite_waiting (d : DocM) (s : String) :
    (docWrite d s).waiting = d.waiting := rfl

@[simp] theorem docWrite_ended (d : DocM) (s : String) :
    (docWrite d s).ended = d.ended := rfl

@[simp] theorem docWrite_finalizeCount (d : DocM) (s : String) :
    (docWrite d s).finalizeCount = d.finalizeCount := rfl

@[simp] theorem docWrite_offsets (d : DocM) (s : String) :
    (docWrite d s).offsets = d.offsets := rfl

@[simp] theorem docWriteRaw_waiting (d : DocM) (p : List Char) :
    (docWriteRaw d p).waiting = d.waiting := rfl

@[simp] theorem docWriteRaw_ended (d : DocM) (p : List Char) :
    (docWriteRaw d p).ended = d.ended := rfl

@[simp] theorem docWriteRaw_finalizeCount (d : DocM) (p : List Char) :
    (docWriteRaw d p).finalizeCount = d.finalizeCount := rfl

@[simp] theorem docWriteRaw_offsets (d : DocM) (p : List Char) :
    (docWriteRaw d p).offsets = d.offsets := rfl

@[simp] theorem docFinalize_waiting (d : DocM) :
    (docFinalize d).waiting = d.waiting := rfl

@[simp] theorem docFinalize_ended (d : DocM) :
    (docFinalize d).ended = d.ended := rfl

@[simp] theorem docFinalize_finalizeCount (d : DocM) :
    (docFinalize d).finalizeCount = d.finalizeCount + 1 := rfl

@[simp] theorem docFinalize_offsets (d : DocM) :
    (docFinalize d).offsets = d.offsets := rfl

theorem docRefEnd_pos (d : DocM) (id off : ℕ)
    (hc : d.waiting - 1 = 0 ∧ d.ended = true) :
    (docRefEnd d id off).waiting = 0 ∧
    (docRefEnd d id off).ended = false ∧
    (docRefEnd d id off).finalizeCount = d.finalizeCount + 1 := by
  unfold docRefEnd
  rw [if_pos hc]
  exact ⟨by simp [hc.1], rfl, rfl⟩

theorem docRefEnd_neg (d : DocM) (id off : ℕ)
    (hc : ¬(d.waiting - 1 = 0 ∧ d.ended = true)) :
    (docRefEnd d id off).waiting = d.waiting - 1 ∧
    (docRefEnd d id off).ended = d.ended ∧
    (docRefEnd d id off).finalizeCount = d.finalizeCount := by
  unfold docRefEnd
  rw [if_neg hc]
  exact ⟨rfl, rfl, rfl⟩

theorem docRefFinalize_eq (d : DocM) (id : ℕ) (payload : List Char) :
    docStep d (DocEv.refFin id payload)
      = docRefEnd (docWrite (docWriteRaw (docWrite d (refHeader id 0)) payload) "endobj")
          id d.offset := rfl

theorem docStep_count_increase (d : DocM) (e : DocEv)
    (h : d.finalizeCount < (docStep d e).finalizeCount) :
    (docStep d e).waiting = 0 ∧ (e = DocEv.endDoc ∨ d.ended = true) := by
  cases e with
  | alloc => simp [docStep, docAlloc] at h
  | endDoc =>
      have hw : d.waiting = 0 := by
        by_contra hw
        have hsame : (docStep d DocEv.endDoc).finalizeCount = d.finalizeCount := by
          show (docEnd d).finalizeCount = _
          unfold docEnd
          rw [if_neg hw]
        omega
      refine ⟨?_, Or.inl rfl⟩
      show (docEnd d).waiting = 0
      unfold docEnd
      rw [if_pos hw]
      simpa using hw
  | refFin id payload =>
      rw [docRefFinalize_eq] at h ⊢
      by_cases hc : d.waiting - 1 = 0 ∧ d.ended = true
      · have hc' : (docWrite (docWriteRaw (docWrite d (refHeader id 0)) payload)
            "endobj").waiting - 1 = 0 ∧
            (docWrite (docWriteRaw (docWrite d (refHeader id 0)) payload)
              "endobj").ended = true := by simpa using hc
        exact ⟨(docRefEnd_pos _ _ _ hc').1, Or.inr hc.2⟩
      · have hc' : ¬((docWrite (docWriteRaw (docWrite d (refHeader id 0)) payload)
            "endobj").waiting - 1 = 0 ∧
            (docWrite (docWriteRaw (docWrite d (refHeader id 0)) payload)
              "endobj").ended = true) := by simpa using hc
        rw [(docRefEnd_neg _ _ _ hc').2.2] at h
        simp at h

theorem docStep_preserves_not_ended (d : DocM) (e : DocEv)
    (hd : d.ended = false) (hne : e ≠ DocEv.endDoc) :
    (docStep d e).ended = false := by
  cases e with
  | alloc => simpa [docStep, docAlloc] using hd
  | endDoc => exact absurd rfl hne
  | refFin id payload =>
      rw [docRefFinalize_eq]
      have hc' : ¬((docWrite (docWriteRaw (docWrite d (refHeader id 0)) payload)
          "endobj").waiting - 1 = 0 ∧
          (docWrite (docWriteRaw (docWrite d (refHeader id 0)) payload)
            "endobj").ended = true) := by simp [hd]
      rw [(docRefEnd_neg _ _ _ hc').2.1]
      simpa using hd

theorem docStep_preserves_count_of_not_ended (d : DocM) (e : DocEv)
    (hd : d.ended = false) (hne : e ≠ DocEv.endDoc) :
    (docStep d e).finalizeCount = d.finalizeCount := by
  cases e with
  | alloc => simp [docStep, docAlloc]
  | endDoc => exact absurd rfl hne
  | refFin id payload =>
      rw [docRefFinalize_eq]
      have hc' : ¬((docWrite (docWriteRaw (docWrite d (refHeader id 0)) payload)
          "endobj").waiting - 1 = 0 ∧
          (docWrite (docWriteRaw (docWrite d (refHeader id 0)) payload)
            "endobj").ended = true) := by simp [hd]
      rw [(docRefEnd_neg _ _ _ hc').2.2]
      simp

/-- C2: the document-level finalize runs only when `end()` has been called
and the pending count is zero: a step that increments the finalize count
leaves the pending count at zero and is either the `end()` event itself or
happens with `_ended` already set; `_ended` can only be set by an `end()`
event; no finalize at all can happen in a trace without an `end()`; and the
two conditions may be met in either order — `end()` finalizes immediately
when nothing is pending, and the last object's `_refEnd` finalizes when
`end()` came first. -/
theorem finalize_requires_end_and_zero_pending :
    (∀ (d : DocM) (e : DocEv), d.finalizeCount < (docStep d e).finalizeCount →
      (docStep d e).waiting = 0 ∧ (e = DocEv.endDoc ∨ d.ended = true)) ∧
    (∀ (d₀ : DocM) (evs : List DocEv), d₀.ended = false →
      (docRun d₀ evs).ended = true → 1 ≤ countEnds evs) ∧
    (∀ (d₀ : DocM) (evs : List DocEv), d₀.ended = false →
      (docRun d₀ evs).finalizeCount = d₀.finalizeCount ∨ 1 ≤ countEnds evs) ∧
    (∀ d : DocM, d.waiting = 0 →
      (docEnd d).finalizeCount = d.finalizeCount + 1) ∧
    (∀ (d : DocM) (id off : ℕ), d.waiting = 1 → d.ended = true →
      (docRefEnd d id off).finalizeCount = d.finalizeCount + 1) := by
  refine ⟨docStep_count_increase, ?_, ?_, ?_, ?_⟩
  · intro d₀ evs
    induction evs generalizing d₀ with
    | nil => intro h hc; rw [docRun] at hc; simp at hc; rw [hc] at h; cases h
    | cons e rest ih =>
        intro hd hrun
        by_cases he : e = DocEv.endDoc
        · subst he
          simp [countEnds]
        · have h1 : (docStep d₀ e).ended = false :=
            docStep_preserves_not_ended d₀ e hd he
          have h2 : 1 ≤ countEnds rest := ih (docStep d₀ e) h1 (by
            simpa [docRun] using hrun)
          calc 1 ≤ countEnds rest := h2
            _ ≤ countEnds (e :: rest) := by
                cases e <;> simp [countEnds]
  · intro d₀ evs
    induction evs generalizing d₀ with
    | nil => intro _; left; rfl
    | cons e rest ih =>
        intro hd
        by_cases he : e = DocEv.endDoc
        · subst he
          right
          simp [countEnds]
        · have h1 : (docStep d₀ e).ended = false :=
            docStep_preserves_not_ended d₀ e hd he
          have h2 : (docStep d₀ e).finalizeCount = d₀.finalizeCount :=
            docStep_preserves_count_of_not_ended d₀ e hd he
          rcases ih (docStep d₀ e) h1 with h | h
          · left
            rw [docRun] at h ⊢
            simp only [List.foldl_cons]
            rw [h, h2]
          · right
            calc 1 ≤ countEnds rest := h
              _ ≤ countEnds (e :: rest) := by
                  cases e <;> simp [countEnds]
  · intro d hw
    unfold docEnd
    rw [if_pos hw]
    rfl
  · intro d id off hw he
    exact (docRefEnd_pos d id off ⟨by omega, he⟩).2.2

/-- Witness for C2: a document with nothing pending finalizes immediately on
`end()`, and a document with one pending object and `end()` already called
finalizes on that object's `_refEnd`. -/
theorem finalize_requires_end_and_zero_pending_witness :
    (docEnd ⟨[some 17], 0, false, 40, [], 1, 2, 0⟩).finalizeCount = 0 + 1 ∧
    (docRefEnd ⟨[none], 1, true, 40, [], 1, 2, 0⟩ 1 17).finalizeCount = 0 + 1 :=
  ⟨finalize_requires_end_and_zero_pending.2.2.2.1 ⟨[some 17], 0, false, 40, [], 1, 2, 0⟩ rfl,
    finalize_requires_end_and_zero_pending.2.2.2.2 ⟨[none], 1, true, 40, [], 1, 2, 0⟩ 1 17 rfl rfl⟩

theorem docStep_invariant_bound (d : DocM) (e : DocEv) :
    (docStep d e).finalizeCount + (if (docStep d e).ended then 1 else 0)
      ≤ d.finalizeCount + (if d.ended then 1 else 0) + countEnds [e] := by
  cases e with
  | alloc => simp [docStep, docAlloc, countEnds]
  | endDoc =>
      have hstep : docStep d DocEv.endDoc = docEnd d := rfl
      have hcnt : countEnds [DocEv.endDoc] = 1 := rfl
      rw [hstep, hcnt]
      by_cases hw : d.waiting = 0
      · unfold docEnd
        rw [if_pos hw]
        have h1 : (docFinalize d).finalizeCount = d.finalizeCount + 1 := rfl
        have h2 : (docFinalize d).ended = d.ended := rfl
        rw [h1, h2]
        split <;> omega
      · unfold docEnd
        rw [if_neg hw]
        have h1 : ({ d with ended := true } : DocM).finalizeCount
            = d.finalizeCount := rfl
        have h2 : ({ d with ended := true } : DocM).ended = true := rfl
        rw [h1, h2]
        split <;> simp
  | refFin id payload =>
      have hcnt : countEnds [DocEv.refFin id payload] = 0 := rfl
      rw [hcnt]
      rw [docRefFinalize_eq]
      by_cases hc : (docWrite (docWriteRaw (docWrite d (refHeader id 0)) payload)
          "endobj").waiting - 1 = 0 ∧
          (docWrite (docWriteRaw (docWrite d (refHeader id 0)) payload)
            "endobj").ended = true
      · obtain ⟨_, h2, h3⟩ := docRefEnd_pos _ id d.offset hc
        rw [h2, h3]
        have he : d.ended = true := by simpa using hc.2
        rw [he]
        simp
      · obtain ⟨_, h2, h3⟩ := docRefEnd_neg _ id d.offset hc
        rw [h2, h3]
        simp

theorem docRun_invariant_bound (d : DocM) (evs : List DocEv) :
    (docRun d evs).finalizeCount + (if (docRun d evs).ended then 1 else 0)
      ≤ d.finalizeCount + (if d.ended then 1 else 0) + countEnds evs := by
  induction evs generalizing d with
  | nil => simp [docRun, countEnds]
  | cons e rest ih =>
      have h1 := docStep_invariant_bound d e
      have h2 := ih (docStep d e)
      have h3 : countEnds (e :: rest) = countEnds [e] + countEnds rest := by
        cases e <;> simp [countEnds] <;> omega
      rw [docRun] at h2 ⊢
      simp only [List.foldl_cons] at h2 ⊢
      omega

/-- C10: the finalize step runs at most once along any trace containing at
most one `end()` call; `end()` on a document with nothing pending finalizes
without setting `_ended`; otherwise it only sets `_ended`; the `_refEnd`
that drives the counter to zero with `_ended` set both finalizes and clears
`_ended`; and a `_refEnd` with `_ended` clear never finalizes. -/
theorem finalize_at_most_once :
    (∀ (d₀ : DocM) (evs : List DocEv), d₀.ended = false → d₀.finalizeCount = 0 →
      countEnds evs ≤ 1 → (docRun d₀ evs).finalizeCount ≤ 1) ∧
    (∀ d : DocM, d.waiting = 0 → (docEnd d).ended = d.ended ∧
      (docEnd d).finalizeCount = d.finalizeCount + 1) ∧
    (∀ d : DocM, d.waiting ≠ 0 → docEnd d = { d with ended := true }) ∧
    (∀ (d : DocM) (id off : ℕ), d.waiting = 1 → d.ended = true →
      (docRefEnd d id off).finalizeCount = d.finalizeCount + 1 ∧
      (docRefEnd d id off).ended = false) ∧
    (∀ (d : DocM) (id off : ℕ), d.ended = false →
      (docRefEnd d id off).finalizeCount = d.finalizeCount) := by
  refine ⟨?_, ?_, ?_, ?_, ?_⟩
  · intro d₀ evs h1 h2 h3
    have hb := docRun_invariant_bound d₀ evs
    rw [h1, h2] at hb
    simp only [Bool.false_eq_true, if_false] at hb
    omega
  · intro d hw
    unfold docEnd
    rw [if_pos hw]
    exact ⟨rfl, rfl⟩
  · intro d hw
    unfold docEnd
    rw [if_neg hw]
  · intro d id off hw he
    have h := docRefEnd_pos d id off ⟨by omega, he⟩
    exact ⟨h.2.2, h.2.1⟩
  · intro d id off he
    have h := docRefEnd_neg d id off (by simp [he])
    exact h.2.2

/-- Witness for C10: one allocated object, `end()` first, then its deferred
finalize: exactly one document finalize. -/
theorem finalize_at_most_once_witness :
    (docRun ⟨[none], 1, false, 0, [], 1, 2, 0⟩
        [DocEv.endDoc, DocEv.refFin 1 []]).finalizeCount ≤ 1 :=
  finalize_at_most_once.1 ⟨[none], 1, false, 0, [], 1, 2, 0⟩
    [DocEv.endDoc, DocEv.refFin 1 []] rfl rfl (by decide)

/-! ## Overlong-word splitting (LineWrapper.eachWord, source lines 7129-7173)

Widths come from the `wordWidth` collaborator, modelled as an arbitrary
`ww : List Char → ℕ`.  `word.slice(0, l)` is `word.take l`.  The float
interpolation `Math.ceil(spaceLeft / (w / word.length))` becomes the exact
natural ceiling of `spaceLeft * word.length / w`. -/

/-- The `mustShrink` phase of the correction loop (lines 7151-7153):
decrement `l` until the prefix fits or `l` reaches 0. -/
def shrinkLoop (ww : List Char → ℕ) (s : ℕ) (word : List Char) : ℕ → ℕ
  | 0 => 0
  | l + 1 => if ww (word.take l) > s ∧ 0 < l then shrinkLoop ww s word l else l

/-- The `mightGrow` phase (lines 7154-7157): increment `l` while the longer
prefix still fits and characters remain; on overshoot the loop steps back
once and exits, i.e. it returns the last fitting `l`. -/
def growLoop (ww : List Char → ℕ) (s : ℕ) (word : List Char) : ℕ → ℕ → ℕ
  | 0, l => l
  | fuel + 1, l =>
    if ww (word.take (l + 1)) > s then l
    else if l + 1 < word.length then growLoop ww s word fuel (l + 1)
    else l + 1

/-- The shrink-or-grow correction applied to the interpolated guess `l0`
(lines 7144-7159): `mustShrink` takes priority in the source loop and the
two flags are mutually exclusive at entry. -/
def fitChop (ww : List Char → ℕ) (s : ℕ) (word : List Char) (l0 : ℕ) : ℕ :=
  if ww (word.take l0) > s ∧ 0 < l0 then shrinkLoop ww s word l0
  else if ww (word.take l0) ≤ s ∧ l0 < word.length then
    growLoop ww s word (word.length - l0) l0
  else l0

/-- One iteration of the chopping loop (lines 7137-7159): if the remaining
word exceeds the space left, estimate the cut by linear interpolation and
correct it; otherwise take the whole remaining word. -/
def fitPiece (ww : List Char → ℕ) (s : ℕ) (word : List Char) : ℕ :=
  if ww word > s then
    fitChop ww s word ((s * word.length + ww word - 1) / ww word)
  else word.length

/-- The full chopping loop of `eachWord` combined with the `wrap` callback's
effect on `spaceLeft`: each piece but the last is emitted with a required
break, after which `wrap` resets `spaceLeft` to the full line width (line
7293), so every piece after the first is fitted against `lineWidth`.  The
source loops forever when no progress is possible; the model returns `none`
when the fuel runs out. -/
def chopWord (ww : List Char → ℕ) (lineWidth : ℕ) :
    ℕ → ℕ → Bool → List Char → Option (List (List Char × Bool))
  | fuel, s, bkRequired, word =>
    if word.length = 0 then some []
    else
      match fuel with
      | 0 => none
      | fuel + 1 =>
        match chopWord ww lineWidth fuel lineWidth bkRequired
            (word.drop (fitPiece ww s word)) with
        | none => none
        | some rest =>
            some ((word.take (fitPiece ww s word),
              bkRequired || decide (fitPiece ww s word < word.length)) :: rest)

/-- A width collaborator is monotone when measuring one more character never
shrinks the result. -/
def WidthMono (ww : List Char → ℕ) : Prop :=
  ∀ (u : List Char) (i : ℕ), ww (u.take i) ≤ ww (u.take (i + 1))

theorem widthMono_le {ww : List Char → ℕ} (h : WidthMono ww) (u : List Char)
    {i j : ℕ} (hij : i ≤ j) : ww (u.take i) ≤ ww (u.take j) := by
  induction j with
  | zero => simp_all
  | succ k ih =>
      rcases Nat.lt_or_ge i (k + 1) with hk | hk
      · exact le_trans (ih (by omega)) (h u k)
      · have : i = k + 1 := by omega
        subst this
        exact le_rfl

theorem shrinkLoop_le (ww : List Char → ℕ) (s : ℕ) (word : List Char) :
    ∀ l, shrinkLoop ww s word l ≤ l := by
  intro l
  induction l with
  | zero => simp [shrinkLoop]
  | succ k ih =>
      rw [shrinkLoop]
      split
      · omega
      · omega

theorem shrinkLoop_fits (ww : List Char → ℕ) (s : ℕ) (word : List Char) :
    ∀ l, shrinkLoop ww s word l = 0 ∨ ww (word.take (shrinkLoop ww s word l)) ≤ s := by
  intro l
  induction l with
  | zero => left; rfl
  | succ k ih =>
      rw [shrinkLoop]
      split
      · exact ih
      · rename_i hcond
        rcases Nat.lt_or_ge s (ww (word.take k)) with hk | hk
        · left
          omega
        · right
          exact hk

theorem shrinkLoop_max {ww : List Char → ℕ} (hmono : WidthMono ww) (s : ℕ)
    (word : List Char) :
    ∀ l, ww (word.take l) > s →
      ∀ m, ww (word.take m) ≤ s → m ≤ shrinkLoop ww s word l := by
  intro l
  induction l with
  | zero =>
      intro hl m hm
      have := widthMono_le hmono word (Nat.zero_le m)
      omega
  | succ k ih =>
      intro hl m hm
      rw [shrinkLoop]
      split
      · rename_i hcond
        exact ih hcond.1 m hm
      · rename_i hcond
        by_contra hmk
        have hm1 : k + 1 ≤ m := by omega
        have := widthMono_le hmono word hm1
        omega

theorem growLoop_ge (ww : List Char → ℕ) (s : ℕ) (word : List Char) :
    ∀ fuel l, l ≤ growLoop ww s word fuel l := by
  intro fuel
  induction fuel with
  | zero => intro l; simp [growLoop]
  | succ k ih =>
      intro l
      rw [growLoop]
      split
      · exact le_rfl
      · split
        · exact le_trans (by omega) (ih (l + 1))
        · omega

theorem growLoop_fits {ww : List Char → ℕ} (s : ℕ) (word : List Char) :
    ∀ fuel l, ww (word.take l) ≤ s →
      ww (word.take (growLoop ww s word fuel l)) ≤ s := by
  intro fuel
  induction fuel with
  | zero => intro l h; simpa [growLoop] using h
  | succ k ih =>
      intro l h
      rw [growLoop]
      split
      · exact h
      · rename_i hgt
        split
        · exact ih (l + 1) (by omega)
        · omega

theorem growLoop_le_len (ww : List Char → ℕ) (s : ℕ) (word : List Char) :
    ∀ fuel l, l < word.length → growLoop ww s word fuel l ≤ word.length := by
  intro fuel
  induction fuel with
  | zero => intro l h; simpa [growLoop] using Nat.le_of_lt h
  | succ k ih =>
      intro l h
      rw [growLoop]
      split
      · omega
      · split
        · exact ih (l + 1) (by omega)
        · omega

theorem growLoop_max {ww : List Char → ℕ} (hmono : WidthMono ww) (s : ℕ)
    (word : List Char) :
    ∀ fuel l, l < word.length → word.length - l ≤ fuel →
      ∀ m, m ≤ word.length → ww (word.take m) ≤ s →
        m ≤ growLoop ww s word fuel l := by
  intro fuel
  induction fuel with
  | zero => intro l h1 h2; omega
  | succ k ih =>
      intro l h1 h2 m hm hfit
      rw [growLoop]
      split
      · rename_i hgt
        by_contra hml
        have hm1 : l + 1 ≤ m := by omega
        have := widthMono_le hmono word hm1
        omega
      · split
        · rename_i hlen
          exact ih (l + 1) hlen (by omega) m hm hfit
        · omega

/-- The exit value of the correction loop: at least one character, at most
the whole word, the chosen cut fits, and it is the maximal fitting cut. -/
theorem fitPiece_spec {ww : List Char → ℕ} (hmono : WidthMono ww) (s : ℕ)
    (word : List Char) (hne : word ≠ [])
    (hone : ww (word.take 1) ≤ s) :
    1 ≤ fitPiece ww s word ∧ fitPiece ww s word ≤ word.length ∧
    ww (word.take (fitPiece ww s word)) ≤ s ∧
    (∀ m, m ≤ word.length → ww (word.take m) ≤ s → m ≤ fitPiece ww s word) := by
  have hlen : 0 < word.length := List.length_pos.mpr hne
  unfold fitPiece
  by_cases hw : ww word > s
  · rw [if_pos hw]
    have hww : ww (word.take word.length) = ww word := by
      rw [List.take_length]
    have hwpos : 0 < ww word := by
      have h0 := widthMono_le hmono word (Nat.le_refl 1)
      omega
    have hl0 : (s * word.length + ww word - 1) / ww word ≤ word.length := by
      rw [Nat.div_le_iff_le_mul_add_pred hwpos]
      have hslt : s * word.length ≤ ww word * word.length :=
        Nat.mul_le_mul_right _ (by omega)
      omega
    unfold fitChop
    by_cases hms : ww (word.take ((s * word.length + ww word - 1) / ww word)) > s ∧
        0 < (s * word.length + ww word - 1) / ww word
    · rw [if_pos hms]
      have hmax := shrinkLoop_max hmono s word _ hms.1
      have h1 : 1 ≤ shrinkLoop ww s word ((s * word.length + ww word - 1) / ww word) :=
        hmax 1 hone
      have hle := shrinkLoop_le ww s word ((s * word.length + ww word - 1) / ww word)
      rcases shrinkLoop_fits ww s word ((s * word.length + ww word - 1) / ww word)
        with h0 | hfits
      · omega
      · exact ⟨h1, by omega, hfits, fun m _ hm => hmax m hm⟩
    · rw [if_neg hms]
      by_cases hmg : ww (word.take ((s * word.length + ww word - 1) / ww word)) ≤ s ∧
          (s * word.length + ww word - 1) / ww word < word.length
      · rw [if_pos hmg]
        have hge := growLoop_ge ww s word (word.length - (s * word.length + ww word - 1) / ww word)
          ((s * word.length + ww word - 1) / ww word)
        have hmax := growLoop_max hmono s word
          (word.length - (s * word.length + ww word - 1) / ww word)
          ((s * word.length + ww word - 1) / ww word) hmg.2 (by omega)
        refine ⟨hmax 1 (by omega) hone, ?_, growLoop_fits s word _ _ hmg.1, fun m hm hfit => hmax m hm hfit⟩
        exact growLoop_le_len ww s word _ _ hmg.2
      · rw [if_neg hmg]
        push_neg at hms hmg
        by_cases hz : 0 < (s * word.length + ww word - 1) / ww word
        · have hfit : ww (word.take ((s * word.length + ww word - 1) / ww word)) ≤ s := by
            by_contra hc
            have hd0 := hms (by omega)
            omega
          have hlenq : word.length ≤ (s * word.length + ww word - 1) / ww word :=
            hmg hfit
          have heq : (s * word.length + ww word - 1) / ww word = word.length := by omega
          refine ⟨by omega, by omega, hfit, fun m hm _ => by omega⟩
        · have hz0 : (s * word.length + ww word - 1) / ww word = 0 :=
            Nat.eq_zero_of_not_pos hz
          rw [hz0] at hms hmg ⊢
          have h01 : ww (word.take 0) ≤ ww (word.take 1) := hmono word 0
          have hfit0 : ww (word.take 0) ≤ s := by omega
          have : word.length ≤ 0 := hmg hfit0
          omega
  · rw [if_neg hw]
    push_neg at hw
    refine ⟨by omega, le_rfl, ?_, fun m hm _ => hm⟩
    rw [List.take_length]
    exact hw

theorem chopWord_go {ww : List Char → ℕ} (hmono : WidthMono ww) (lineWidth : ℕ)
    (hL : ∀ u : List Char, u ≠ [] → ww (u.take 1) ≤ lineWidth) :
    ∀ (fuel : ℕ) (word : List Char) (s : ℕ) (bkRequired : Bool),
      word ≠ [] → word.length ≤ fuel → ww (word.take 1) ≤ s →
      ∃ p0 rest,
        chopWord ww lineWidth fuel s bkRequired word = some (p0 :: rest) ∧
        ((p0 :: rest).map Prod.fst).flatten = word ∧
        ww p0.1 ≤ s ∧ (∀ p ∈ rest, ww p.1 ≤ lineWidth) ∧
        (∀ p ∈ (p0 :: rest).dropLast, p.2 = true) ∧
        (p0 :: rest).getLast?.map Prod.snd = some bkRequired := by
  intro fuel
  induction fuel with
  | zero =>
      intro word s bk hne hfuel _
      have := List.length_pos.mpr hne
      omega
  | succ k ih =>
      intro word s bk hne hfuel hone
      have hlen : 0 < word.length := List.length_pos.mpr hne
      obtain ⟨hf1, hf2, hf3, _⟩ := fitPiece_spec hmono s word hne hone
      by_cases hrest : word.drop (fitPiece ww s word) = []
      · have heq : fitPiece ww s word = word.length := by
          have hdl : word.length - fitPiece ww s word = 0 := by
            have := congrArg List.length hrest
            simpa [List.length_drop] using this
          omega
        refine ⟨(word.take (fitPiece ww s word),
          bk || decide (fitPiece ww s word < word.length)), [], ?_, ?_, hf3, ?_, ?_, ?_⟩
        · rw [chopWord.eq_def]
          dsimp only
          rw [if_neg (by omega)]
          have hchopnil : chopWord ww lineWidth k lineWidth bk
              (word.drop (fitPiece ww s word)) = some [] := by
            rw [chopWord.eq_def, hrest]
            dsimp only
            simp
          rw [hchopnil]
        · simp only [List.map_cons, List.map_nil, List.flatten_cons,
            List.flatten_nil, List.append_nil]
          rw [heq, List.take_length]
        · intro p hp
          simp at hp
        · intro p hp
          simp at hp
        · have hdec : decide (fitPiece ww s word < word.length) = false := by
            rw [heq]
            simp
          simp [hdec]
      · have hlt : fitPiece ww s word < word.length := by
          by_contra hc
          exact hrest (List.drop_eq_nil_of_le (by omega))
        obtain ⟨p0', rest', hchop', hconcat', hfit0', hfitr', hflags', hlast'⟩ :=
          ih (word.drop (fitPiece ww s word)) lineWidth bk hrest
            (by rw [List.length_drop]; omega)
            (hL (word.drop (fitPiece ww s word)) hrest)
        refine ⟨(word.take (fitPiece ww s word),
          bk || decide (fitPiece ww s word < word.length)), p0' :: rest',
          ?_, ?_, hf3, ?_, ?_, ?_⟩
        · rw [chopWord.eq_def]
          dsimp only
          rw [if_neg (by omega)]
          rw [hchop']
        · simp only [List.map_cons, List.flatten_cons] at hconcat' ⊢
          rw [hconcat', List.take_append_drop]
        · intro p hp
          rcases List.mem_cons.mp hp with h | h
          · rw [h]
            exact hfit0'
          · exact hfitr' p h
        · intro p hp
          rw [List.dropLast_cons₂] at hp
          rcases List.mem_cons.mp hp with h | h
          · rw [h]
            simp [hlt]
          · exact hflags' p h
        · rw [List.getLast?_cons_cons]
          exact hlast'

/-- C4: a word wider than the whole line is chopped into pieces: the
chopping succeeds within `word.length` iterations, each piece measures at
most the space available on its line (the current `spaceLeft` for the first
piece, the full line width afterwards) and hence at most the line width,
the concatenation of the pieces is exactly the original word, every split
point but the last is flagged required while the final remainder keeps the
original break's flag, and the interpolated cut is corrected to the maximal
prefix that still fits. -/
theorem overlong_word_split_correct {ww : List Char → ℕ} (lineWidth s : ℕ)
    (word : List Char) (bkRequired : Bool)
    (hmono : WidthMono ww)
    (hL : ∀ u : List Char, u ≠ [] → ww (u.take 1) ≤ lineWidth)
    (hs : ww (word.take 1) ≤ s) (hsL : s ≤ lineWidth)
    (hne : word ≠ []) (_hover : ww word > lineWidth) :
    ∃ ps, chopWord ww lineWidth word.length s bkRequired word = some ps ∧
      ps ≠ [] ∧
      (ps.map Prod.fst).flatten = word ∧
      (∀ p ∈ ps, ww p.1 ≤ lineWidth) ∧
      (∃ p0 rest, ps = p0 :: rest ∧ ww p0.1 ≤ s) ∧
      (∀ p ∈ ps.dropLast, p.2 = true) ∧
      ps.getLast?.map Prod.snd = some bkRequired ∧
      (∀ m, m ≤ word.length → ww (word.take m) ≤ s → m ≤ fitPiece ww s word) := by
  obtain ⟨p0, rest, hchop, hconcat, hfit0, hfitr, hflags, hlast⟩ :=
    chopWord_go hmono lineWidth hL word.length word s bkRequired hne le_rfl hs
  refine ⟨p0 :: rest, hchop, by simp, hconcat, ?_, ⟨p0, rest, rfl, hfit0⟩,
    hflags, hlast, (fitPiece_spec hmono s word hne hs).2.2.2⟩
  intro p hp
  rcases List.mem_cons.mp hp with h | h
  · rw [h]
    exact le_trans hfit0 hsL
  · exact hfitr p h

/-- Witness for C4: four characters of width 10 each (plus a fixed overhead
of 1) on a 25-unit line are chopped into fitting pieces. -/
theorem overlong_word_split_correct_witness :
    ∃ ps, chopWord (fun u => 10 * u.length + 1) 25
        ((['a', 'a', 'a', 'a'] : List Char).length) 25 false
        ['a', 'a', 'a', 'a'] = some ps ∧
      ps ≠ [] ∧
      (ps.map Prod.fst).flatten = ['a', 'a', 'a', 'a'] ∧
      (∀ p ∈ ps, (fun u : List Char => 10 * u.length + 1) p.1 ≤ 25) ∧
      (∃ p0 rest, ps = p0 :: rest ∧
        (fun u : List Char => 10 * u.length + 1) p0.1 ≤ 25) ∧
      (∀ p ∈ ps.dropLast, p.2 = true) ∧
      ps.getLast?.map Prod.snd = some false ∧
      (∀ m, m ≤ (['a', 'a', 'a', 'a'] : List Char).length →
        (fun u : List Char => 10 * u.length + 1) (List.take m ['a', 'a', 'a', 'a']) ≤ 25 →
        m ≤ fitPiece (fun u => 10 * u.length + 1) 25 ['a', 'a', 'a', 'a']) :=
  overlong_word_split_correct 25 25 ['a', 'a', 'a', 'a'] false
    (fun u i => by simp only [List.length_take]; omega)
    (fun u hu => by
      have := List.length_pos.mpr hu
      simp only [List.length_take]
      omega)
    (by decide) le_rfl (by decide) (by decide)

/-! ## The cross-reference table (C1)

`HeaderAt out pos s` says the byte sequence `s` appears in `out` starting
at byte position `pos`. -/

def HeaderAt (out : List Char) (pos : ℕ) (s : List Char) : Prop :=
  pos + s.length ≤ out.length ∧ (out.drop pos).take s.length = s

theorem headerAt_append {out : List Char} {pos : ℕ} {s : List Char}
    (t : List Char) (h : HeaderAt out pos s) : HeaderAt (out ++ t) pos s := by
  obtain ⟨h1, h2⟩ := h
  constructor
  · rw [List.length_append]
    omega
  · rw [List.drop_append_of_le_length (by omega)]
    rw [List.take_append_of_le_length (by rw [List.length_drop]; omega)]
    exact h2

theorem headerAt_self (out s t : List Char) :
    HeaderAt (out ++ (s ++ t)) out.length s := by
  constructor
  · simp only [List.length_append]
    omega
  · rw [List.drop_left, List.take_left]

/-- Every xref table line is 19 bytes before its newline. -/
theorem xrefEntry_length (o : Option ℕ) : (xrefEntry o).length = 19 := by
  unfold xrefEntry sliceLastTen
  rw [String.length_append]
  show (("0000000000" ++ jsOffsetStr o).data.drop
      (("0000000000" ++ jsOffsetStr o).data.length - 10)).length + 9 = 19
  rw [List.length_drop, String.data_append, List.length_append]
  have h10 : ("0000000000" : String).data.length = 10 := rfl
  rw [h10]
  omega

/-- When the decimal rendering of the offset fits in ten digits, the entry's
offset field is that rendering left-padded with zeros to width ten. -/
theorem xrefEntry_eq_padded (o : ℕ) (h : (toString o).length ≤ 10) :
    xrefEntry (some o)
      = String.mk (List.replicate (10 - (toString o).length) '0')
          ++ toString o ++ " 00000 n " := by
  unfold xrefEntry sliceLastTen jsOffsetStr
  have hdata : ("0000000000" ++ toString o).data
      = List.replicate 10 '0' ++ (toString o).data := by
    rw [String.data_append]
    rfl
  have hlen : ("0000000000" ++ toString o).data.length
      = 10 + (toString o).data.length := by
    rw [hdata, List.length_append, List.length_replicate]
  have hle : (toString o).data.length ≤ 10 := h
  have hdrop : ("0000000000" ++ toString o).data.drop
      (("0000000000" ++ toString o).data.length - 10)
      = List.replicate (10 - (toString o).length) '0' ++ (toString o).data := by
    rw [hlen, hdata]
    rw [List.drop_append_of_le_length (by rw [List.length_replicate]; omega)]
    rw [List.drop_replicate]
    have harith : 10 - (10 + (toString o).data.length - 10)
        = 10 - (toString o).length := by
      show _ = 10 - (toString o).data.length
      omega
    rw [harith]
  rw [hdrop]
  apply String.ext
  simp [String.data_append]

@[simp] theorem docWrite_rootId (d : DocM) (s : String) :
    (docWrite d s).rootId = d.rootId := rfl

@[simp] theorem docWrite_infoId (d : DocM) (s : String) :
    (docWrite d s).infoId = d.infoId := rfl

@[simp] theorem docWriteRaw_rootId (d : DocM) (p : List Char) :
    (docWriteRaw d p).rootId = d.rootId := rfl

@[simp] theorem docWriteRaw_infoId (d : DocM) (p : List Char) :
    (docWriteRaw d p).infoId = d.infoId := rfl

theorem docWrite_inv {d : DocM} (s : String) (h : d.offset = d.out.length) :
    (docWrite d s).offset = (docWrite d s).out.length := by
  show d.offset + (s.length + 1) = (d.out ++ (s.data ++ ['\n'])).length
  rw [List.length_append, List.length_append, h]
  have hs : s.length = s.data.length := rfl
  rw [hs]
  rfl

theorem docWriteRaw_inv {d : DocM} (p : List Char) (h : d.offset = d.out.length) :
    (docWriteRaw d p).offset = (docWriteRaw d p).out.length := by
  show d.offset + p.length = (d.out ++ p).length
  rw [List.length_append, h]

/-- The invariant carried through an arbitrary finalize order: once every
id in `l` has run its deferred finalize, all offsets are recorded, each
pointing at its object's emitted header, and — since `_ended` is set — the
last `_refEnd` has fired `_finalize` exactly once. -/
theorem docRun_refFins_spec (payload : ℕ → List Char) (N : ℕ) :
    ∀ (l : List ℕ) (d : DocM),
      d.offset = d.out.length →
      d.waiting = (l.length : ℤ) →
      d.ended = true →
      d.offsets.length = N →
      l.Nodup →
      (∀ i ∈ l, 1 ≤ i ∧ i ≤ N) →
      (∀ id, 1 ≤ id → id ≤ N → id ∉ l →
        ∃ o, d.offsets[id - 1]? = some (some o) ∧
          HeaderAt d.out o (refHeader id 0).data) →
      (l = [] ∧ docRun d (l.map fun i => DocEv.refFin i (payload i)) = d) ∨
      (l ≠ [] ∧ ∃ g : DocM,
        docRun d (l.map fun i => DocEv.refFin i (payload i))
          = { docFinalize g with ended := false } ∧
        g.offset = g.out.length ∧
        g.offsets.length = N ∧
        g.rootId = d.rootId ∧ g.infoId = d.infoId ∧
        (∀ id, 1 ≤ id → id ≤ N →
          ∃ o, g.offsets[id - 1]? = some (some o) ∧
            HeaderAt g.out o (refHeader id 0).data)) := by
  intro l
  induction l with
  | nil =>
      intro d _ _ _ _ _ _ _
      left
      exact ⟨rfl, rfl⟩
  | cons i rest ih =>
      intro d h1 h2 h3 h4 h5 h6 h7
      right
      refine ⟨by simp, ?_⟩
      have hi : 1 ≤ i ∧ i ≤ N := h6 i (by simp)
      have hWout : (docWrite (docWriteRaw (docWrite d (refHeader i 0)) (payload i))
          "endobj").out
          = d.out ++ ((refHeader i 0).data
              ++ (['\n'] ++ (payload i ++ (String.data "endobj" ++ ['\n'])))) := by
        show ((d.out ++ ((refHeader i 0).data ++ ['\n'])) ++ payload i)
            ++ (String.data "endobj" ++ ['\n']) = _
        simp [List.append_assoc]
      have hWoff : (docWrite (docWriteRaw (docWrite d (refHeader i 0)) (payload i))
          "endobj").offset
          = (docWrite (docWriteRaw (docWrite d (refHeader i 0)) (payload i))
              "endobj").out.length :=
        docWrite_inv _ (docWriteRaw_inv _ (docWrite_inv _ h1))
      have hHead : HeaderAt (docWrite (docWriteRaw (docWrite d (refHeader i 0))
          (payload i)) "endobj").out d.offset (refHeader i 0).data := by
        rw [hWout, h1]
        exact headerAt_self d.out (refHeader i 0).data _
      by_cases hrest : rest = []
      · subst hrest
        have hw1 : d.waiting = 1 := by simpa using h2
        have hcond : (docWrite (docWriteRaw (docWrite d (refHeader i 0)) (payload i))
            "endobj").waiting - 1 = 0 ∧
            (docWrite (docWriteRaw (docWrite d (refHeader i 0)) (payload i))
              "endobj").ended = true := by
          constructor
          · simp [hw1]
          · simpa using h3
        refine ⟨{ (docWrite (docWriteRaw (docWrite d (refHeader i 0)) (payload i))
            "endobj") with
            offsets := (docWrite (docWriteRaw (docWrite d (refHeader i 0))
              (payload i)) "endobj").offsets.set (i - 1) (some d.offset),
            waiting := (docWrite (docWriteRaw (docWrite d (refHeader i 0))
              (payload i)) "endobj").waiting - 1 }, ?_, ?_, ?_, rfl, rfl, ?_⟩
        · show docRefEnd (docWrite (docWriteRaw (docWrite d (refHeader i 0))
            (payload i)) "endobj") i d.offset = _
          unfold docRefEnd
          rw [if_pos hcond]
        · exact hWoff
        · simpa using h4
        · intro id hid1 hid2
          by_cases hidi : id = i
          · subst hidi
            refine ⟨d.offset, ?_, hHead⟩
            show ((docWrite (docWriteRaw (docWrite d (refHeader id 0))
              (payload id)) "endobj").offsets.set (id - 1) (some d.offset))[id - 1]?
                = some (some d.offset)
            rw [List.getElem?_set_eq (by
              simp only [docWrite_offsets, docWriteRaw_offsets]
              rw [h4]
              omega)]
          · obtain ⟨o, ho1, ho2⟩ := h7 id hid1 hid2 (by simp [hidi])
            refine ⟨o, ?_, ?_⟩
            · show ((docWrite (docWriteRaw (docWrite d (refHeader i 0))
                (payload i)) "endobj").offsets.set (i - 1) (some d.offset))[id - 1]?
                  = some (some o)
              rw [List.getElem?_set_ne (by omega)]
              simpa using ho1
            · show HeaderAt (docWrite (docWriteRaw (docWrite d (refHeader i 0))
                (payload i)) "endobj").out o (refHeader id 0).data
              rw [hWout]
              exact headerAt_append _ ho2
      · have hcond : ¬((docWrite (docWriteRaw (docWrite d (refHeader i 0))
            (payload i)) "endobj").waiting - 1 = 0 ∧
            (docWrite (docWriteRaw (docWrite d (refHeader i 0)) (payload i))
              "endobj").ended = true) := by
          intro hc
          have hw : d.waiting - 1 = 0 := by simpa using hc.1
          have hlen : 0 < rest.length := List.length_pos.mpr hrest
          rw [h2] at hw
          simp only [List.length_cons] at hw
          omega
        have hstep : docRun d ((i :: rest).map fun j => DocEv.refFin j (payload j))
            = docRun { (docWrite (docWriteRaw (docWrite d (refHeader i 0))
                (payload i)) "endobj") with
                offsets := (docWrite (docWriteRaw (docWrite d (refHeader i 0))
                  (payload i)) "endobj").offsets.set (i - 1) (some d.offset),
                waiting := (docWrite (docWriteRaw (docWrite d (refHeader i 0))
                  (payload i)) "endobj").waiting - 1 }
              (rest.map fun j => DocEv.refFin j (payload j)) := by
          show docRun (docStep d (DocEv.refFin i (payload i))) _ = _
          congr 1
          show docRefEnd (docWrite (docWriteRaw (docWrite d (refHeader i 0))
            (payload i)) "endobj") i d.offset = _
          unfold docRefEnd
          rw [if_neg hcond]
        have hdone : ∀ id, 1 ≤ id → id ≤ N → id ∉ rest →
            ∃ o, ((docWrite (docWriteRaw (docWrite d (refHeader i 0))
                (payload i)) "endobj").offsets.set (i - 1) (some d.offset))[id - 1]?
                = some (some o) ∧
              HeaderAt (docWrite (docWriteRaw (docWrite d (refHeader i 0))
                (payload i)) "endobj").out o (refHeader id 0).data := by
          intro id hid1 hid2 hidrest
          by_cases hidi : id = i
          · subst hidi
            refine ⟨d.offset, ?_, hHead⟩
            rw [List.getElem?_set_eq (by
              simp only [docWrite_offsets, docWriteRaw_offsets]
              rw [h4]
              omega)]
          · obtain ⟨o, ho1, ho2⟩ := h7 id hid1 hid2 (by simp [hidi, hidrest])
            refine ⟨o, ?_, ?_⟩
            · rw [List.getElem?_set_ne (by omega)]
              simpa using ho1
            · rw [hWout]
              exact headerAt_append _ ho2
        rcases ih { (docWrite (docWriteRaw (docWrite d (refHeader i 0))
            (payload i)) "endobj") with
            offsets := (docWrite (docWriteRaw (docWrite d (refHeader i 0))
              (payload i)) "endobj").offsets.set (i - 1) (some d.offset),
            waiting := (docWrite (docWriteRaw (docWrite d (refHeader i 0))
              (payload i)) "endobj").waiting - 1 }
            hWoff
            (by
              show (docWrite (docWriteRaw (docWrite d (refHeader i 0))
                (payload i)) "endobj").waiting - 1 = _
              rw [docWrite_waiting, docWriteRaw_waiting, docWrite_waiting, h2]
              simp only [List.length_cons]
              push_cast
              ring)
            (by simpa using h3)
            (by simpa using h4)
            (List.Nodup.of_cons h5)
            (fun j hj => h6 j (by simp [hj]))
            hdone with ⟨hnil, _⟩ | ⟨_, g, hrun, hg1, hg2, hg3, hg4, hg5⟩
        · exact absurd hnil hrest
        · refine ⟨g, ?_, hg1, hg2, by simpa using hg3, by simpa using hg4, hg5⟩
          rw [hstep]
          exact hrun

/-- C1: for a document with N allocated objects, after `end()` and all
deferred object finalizes (run in an arbitrary permutation π of 1..N), the
output ends with the finalize tail computed from the id-indexed offsets
array; the cross-reference table has exactly N + 1 lines, line 0 is the
fixed free-object line, every line is 20 bytes with its newline, the entry
at table position id renders the offset recorded for that id (in id order,
independent of π), that offset points at the byte where `<id> 0 obj` was
emitted, and an offset whose decimal form fits ten digits is rendered
zero-padded to exactly that value. -/
theorem xref_table_by_id (N : ℕ) (payload : ℕ → List Char) (π : List ℕ)
    (hperm : π.Perm (List.range' 1 N))
    (out₀ : List Char) (rootId infoId : ℕ) :
    ∃ g : DocM,
      (docRun ⟨List.replicate N none, (N : ℤ), false, out₀.length, out₀,
          rootId, infoId, 0⟩
          (DocEv.endDoc :: π.map fun i => DocEv.refFin i (payload i))).out
        = g.out ++ (finalizeTail g.offsets g.offset g.rootId g.infoId).data ∧
      g.offset = g.out.length ∧
      g.offsets.length = N ∧
      (xrefTableLines g.offsets).length = N + 1 ∧
      (xrefTableLines g.offsets).head? = some "0000000000 65535 f " ∧
      (∀ line ∈ xrefTableLines g.offsets, (line ++ "\n").length = 20) ∧
      (∀ id, 1 ≤ id → id ≤ N →
        ∃ o, g.offsets[id - 1]? = some (some o) ∧
          (xrefTableLines g.offsets)[id]? = some (xrefEntry (some o)) ∧
          HeaderAt g.out o (refHeader id 0).data) ∧
      (∀ o : ℕ, (toString o).length ≤ 10 →
        xrefEntry (some o)
          = String.mk (List.replicate (10 - (toString o).length) '0')
              ++ toString o ++ " 00000 n ") := by
  have hlineLen : ∀ line ∈ xrefTableLines (List.replicate N none),
      True := fun _ _ => trivial
  have hentry20 : ∀ (offsets : List (Option ℕ)), ∀ line ∈ xrefTableLines offsets,
      (line ++ "\n").length = 20 := by
    intro offsets line hline
    rw [String.length_append]
    rcases List.mem_cons.mp hline with h | h
    · rw [h]
      rfl
    · obtain ⟨o, _, ho⟩ := List.mem_map.mp h
      rw [← ho, xrefEntry_length]
      rfl
  rcases Nat.eq_zero_or_pos N with hN | hN
  · subst hN
    have hπ : π = [] := by
      have := hperm.length_eq
      simpa using List.length_eq_zero.mp (by simpa using this)
    subst hπ
    refine ⟨⟨List.replicate 0 none, ((0 : ℕ) : ℤ), false, out₀.length, out₀,
        rootId, infoId, 0⟩, ?_, rfl, rfl, rfl, rfl, hentry20 _, ?_, ?_⟩
    · show (docEnd ⟨List.replicate 0 none, ((0 : ℕ) : ℤ), false, out₀.length, out₀,
          rootId, infoId, 0⟩).out
        = out₀ ++ (finalizeTail (List.replicate 0 none) out₀.length rootId infoId).data
      unfold docEnd
      rw [if_pos (by norm_num)]
      rfl
    · intro id hid1 hid2
      omega
    · exact xrefEntry_eq_padded
  · have hπlen : π.length = N := by
      rw [hperm.length_eq, List.length_range']
    have hπne : π ≠ [] := by
      intro h
      rw [h] at hπlen
      simp at hπlen
      omega
    have hstep0 : docRun ⟨List.replicate N none, (N : ℤ), false, out₀.length, out₀,
        rootId, infoId, 0⟩
        (DocEv.endDoc :: π.map fun i => DocEv.refFin i (payload i))
        = docRun (docEnd ⟨List.replicate N none, (N : ℤ), false, out₀.length, out₀,
            rootId, infoId, 0⟩)
          (π.map fun i => DocEv.refFin i (payload i)) := rfl
    have hend : docEnd (⟨List.replicate N none, (N : ℤ), false, out₀.length, out₀,
        rootId, infoId, 0⟩ : DocM)
        = ⟨List.replicate N none, (N : ℤ), true, out₀.length, out₀,
            rootId, infoId, 0⟩ := by
      unfold docEnd
      rw [if_neg (by
        show ¬((N : ℤ) = 0)
        exact_mod_cast Nat.pos_iff_ne_zero.mp hN)]
    rcases docRun_refFins_spec payload N π
        ⟨List.replicate N none, (N : ℤ), true, out₀.length, out₀,
          rootId, infoId, 0⟩
        rfl
        (by show (N : ℤ) = (π.length : ℤ); rw [hπlen])
        rfl
        (by simp)
        ((hperm.nodup_iff).mpr (List.nodup_range' 1 N))
        (fun i hi => by
          have := List.mem_range'_1.mp (hperm.subset hi)
          omega)
        (fun id hid1 hid2 hidπ => by
          exact absurd ((hperm.mem_iff).mpr
            (List.mem_range'_1.mpr ⟨hid1, by omega⟩)) hidπ)
      with ⟨hnil, _⟩ | ⟨_, g, hrun, hg1, hg2, hg3, hg4, hg5⟩
    · exact absurd hnil hπne
    · refine ⟨g, ?_, hg1, hg2, by simp [xrefTableLines, hg2], rfl,
        hentry20 _, ?_, xrefEntry_eq_padded⟩
      · rw [hstep0, hend, hrun]
        rfl
      · intro id hid1 hid2
        obtain ⟨o, ho1, ho2⟩ := hg5 id hid1 hid2
        refine ⟨o, ho1, ?_, ho2⟩
        show (xrefTableLines g.offsets)[id]? = _
        unfold xrefTableLines
        have hid : id = (id - 1) + 1 := by omega
        rw [hid]
        rw [List.getElem?_cons_succ]
        rw [List.getElem?_map]
        rw [ho1]
        rfl

/-- Witness for C1: two objects finalized in the order 2 then 1; the xref
table still lists both offsets in id order. -/
theorem xref_table_by_id_witness :
    ∃ g : DocM,
      (docRun ⟨List.replicate 2 none, ((2 : ℕ) : ℤ), false, ([] : List Char).length, [],
          3, 4, 0⟩
          (DocEv.endDoc :: [2, 1].map fun i => DocEv.refFin i ['X'])).out
        = g.out ++ (finalizeTail g.offsets g.offset g.rootId g.infoId).data ∧
      g.offset = g.out.length ∧
      g.offsets.length = 2 ∧
      (xrefTableLines g.offsets).length = 2 + 1 ∧
      (xrefTableLines g.offsets).head? = some "0000000000 65535 f " ∧
      (∀ line ∈ xrefTableLines g.offsets, (line ++ "\n").length = 20) ∧
      (∀ id, 1 ≤ id → id ≤ 2 →
        ∃ o, g.offsets[id - 1]? = some (some o) ∧
          (xrefTableLines g.offsets)[id]? = some (xrefEntry (some o)) ∧
          HeaderAt g.out o (refHeader id 0).data) ∧
      (∀ o : ℕ, (toString o).length ≤ 10 →
        xrefEntry (some o)
          = String.mk (List.replicate (10 - (toString o).length) '0')
              ++ toString o ++ " 00000 n ") :=
  xref_table_by_id 2 (fun _ => ['X']) [2, 1] (by decide) [] 3 4

/-! ## The line wrapper state machine (LineWrapper, source lines 7049-7357,
TextMixin._line, lines 7606-7617)

The collaborators are the `wordWidth` measure `ww` and the break sequence
(pairs of position and required flag, as produced by the line breaker).
The document state that `wrap` touches (x, y, and the fill color that
`nextSection` re-applies to the content stream) is part of the state
record; line events carry the payload of the `'line'` event.  The
per-call `wordWidths` cache of `eachWord` is semantically transparent
because `ww` is a pure function. -/

/-- The `ellipsis` option: absent, `true` (use the default glyph), or a
custom string. -/
inductive EllipsisOpt where
  | off
  | enabled
  | custom (s : List Char)
deriving DecidableEq

def ellipsisOn : EllipsisOpt → Bool
  | .off => false
  | _ => true

def ellipsisChars : EllipsisOpt → List Char
  | .off => []
  | .enabled => ['…']
  | .custom s => s

/-- Payload of one `'line'` event (text, textWidth, wordCount, lineWidth,
and the alignment in force when the event fires). -/
structure LineEvent where
  text : List Char
  textWidth : ℕ
  wordCount : ℕ
  lineWidth : ℕ
  align : String
deriving DecidableEq

/-- The full mutable state of one `wrap` call: the `LineWrapper` fields,
the document cursor and fill color, the shared mutable `options` object,
the pending `once('line')` handlers, and the line accumulation variables
of `wrap` itself. -/
structure WrapSt where
  indent : ℕ
  wordSpacing : ℕ
  columns : ℕ
  columnGap : ℕ
  lineWidth : ℕ
  spaceLeft : ℕ
  startX : ℕ
  startY : ℕ
  column : ℕ
  ellipsis : EllipsisOpt
  continuedX : ℕ
  height : Option ℕ
  maxY : ℕ
  lastLine : Bool
  docX : ℕ
  docY : ℕ
  fillColor : ℕ
  pageTopY : ℕ
  pageMaxY : ℕ
  align : String
  continued : Bool
  lineGap : ℕ
  paragraphGap : ℕ
  lastTextWidth : ℕ
  pendingFirstIndent : Option ℕ
  pendingLast : Bool
  savedAlign : String
  buffer : List Char
  textWidth : ℕ
  wc : ℕ
  lc : ℕ
  savedY : ℕ
  events : List LineEvent
  lh : ℕ
deriving DecidableEq

/-- The `firstLine` handler (lines 7076-7083): apply the carried or
configured indent and register the `once('line')` undo. -/
def fireFirstLine (st : WrapSt) : WrapSt :=
  { st with
    docX := st.docX + (if st.continuedX ≠ 0 then st.continuedX else st.indent),
    lineWidth := st.lineWidth - (if st.continuedX ≠ 0 then st.continuedX else st.indent),
    pendingFirstIndent := some (if st.continuedX ≠ 0 then st.continuedX else st.indent) }

/-- The `lastLine` handler (lines 7097-7103): suppress justification and
register the `once('line')` restore. -/
def fireLastLine (st : WrapSt) : WrapSt :=
  { st with
    savedAlign := st.align,
    align := if st.align = "justify" then "left" else st.align,
    lastLine := true,
    pendingLast := true }

/-- `emitLine` (lines 7216-7224) together with the `'line'` listeners, in
registration order: the document's `_line` callback advances the y cursor
by the line height plus line gap (lines 7611-7616), then the pending
`firstLine` undo (lines 7084-7093), then the pending `lastLine` restore
(lines 7105-7109). -/
def fireLineEmit (st : WrapSt) : WrapSt :=
  { st with
    lastTextWidth := st.textWidth + st.wordSpacing * (st.wc - 1),
    savedY := st.docY,
    events := st.events ++ [⟨st.buffer, st.textWidth + st.wordSpacing * (st.wc - 1),
      st.wc, st.lineWidth, st.align⟩],
    lc := st.lc + 1,
    docY := st.docY + st.lh + st.lineGap }

def fireLineFirstUndo (st : WrapSt) : WrapSt :=
  match st.pendingFirstIndent with
  | some ind =>
      { st with
        docX := st.docX - ind,
        lineWidth := st.lineWidth + ind,
        continuedX :=
          if st.continued then
            (if st.continuedX = 0 then st.indent else st.continuedX)
          else 0,
        pendingFirstIndent := none }
  | none => st

def fireLineLastRestore (st : WrapSt) : WrapSt :=
  if st.pendingLast then
    { st with
      docY := st.docY + st.paragraphGap,
      align := st.savedAlign,
      lastLine := false,
      pendingLast := false }
  else st

def fireLine (st : WrapSt) : WrapSt :=
  fireLineLastRestore (fireLineFirstUndo (fireLineEmit st))

/-- `nextSection` (lines 7330-7357): advance to the next column, or — when
no column remains — stop if a height bound was given, otherwise add a page
(which re-applies the document's fill color to the new content stream) and
restart at column 1. -/
def wrapNextSection (st : WrapSt) : WrapSt × Bool :=
  if st.column + 1 > st.columns then
    match st.height with
    | some _ => ({ st with column := st.column + 1 }, false)
    | none =>
        ({ st with
            column := 1,
            docY := st.pageTopY,
            startY := st.pageTopY,
            maxY := st.pageMaxY,
            docX := st.startX }, true)
  else
    ({ st with
        column := st.column + 1,
        docX := st.docX + st.lineWidth + st.columnGap,
        docY := st.startY }, true)

/-- Start-of-line handling in the wrap callback (lines 7229-7232). -/
def cbStartLine (st : WrapSt) (lastFlag : Bool) : WrapSt :=
  if lastFlag then
    { fireFirstLine st with spaceLeft := (fireFirstLine st).lineWidth }
  else st

/-- Greedy accumulation (lines 7234-7238). -/
def cbAccum (st : WrapSt) (word : List Char) (w : ℕ) : WrapSt :=
  if w ≤ st.spaceLeft then
    { st with
      buffer := st.buffer ++ word,
      textWidth := st.textWidth + w,
      wc := st.wc + 1 }
  else st

/-- The ellipsis engagement (lines 7243-7263), reusing the truncation step. -/
def cbEllipsis (ww : List Char → ℕ) (st : WrapSt) : WrapSt :=
  if st.height.isSome ∧ ellipsisOn st.ellipsis = true ∧
      st.docY + st.lh * 2 > st.maxY ∧ st.column ≥ st.columns then
    { st with
      ellipsis := EllipsisOpt.custom (ellipsisChars st.ellipsis),
      buffer := ellipsisResult ww st.lineWidth (ellipsisChars st.ellipsis) st.buffer,
      textWidth := ww (ellipsisResult ww st.lineWidth (ellipsisChars st.ellipsis)
        st.buffer) }
  else st

/-- The emit block (lines 7265-7276): on a required break with an
overflowing word, flush the buffer first and restart it with the word;
fire `lastLine` on required breaks; then emit the line. -/
def cbEmit (st : WrapSt) (word : List Char) (w : ℕ) (bkReq : Bool) : WrapSt :=
  let st1 :=
    if bkReq ∧ w > st.spaceLeft then
      { fireLine st with buffer := word, textWidth := w, wc := 1 }
    else st
  fireLine (if bkReq then fireLastLine st1 else st1)

/-- The post-emit reset (lines 7292-7303). -/
def cbReset (st : WrapSt) (word : List Char) (w : ℕ) (bkReq : Bool) : WrapSt :=
  if bkReq then
    { st with spaceLeft := st.lineWidth, buffer := [], textWidth := 0, wc := 0 }
  else
    { st with
      spaceLeft := st.lineWidth - w,
      buffer := word,
      textWidth := w,
      wc := 1 }

/-- The page-edge check after emitting (lines 7280-7289) followed by the
reset; returns the wrap callback's `shouldContinue`. -/
def cbBreak (st : WrapSt) (word : List Char) (w : ℕ) (bkReq : Bool) :
    WrapSt × Bool :=
  if st.docY + st.lh > st.maxY then
    match wrapNextSection st with
    | (st', false) => ({ st' with wc := 0, buffer := [] }, false)
    | (st', true) => (cbReset st' word w bkReq, true)
  else (cbReset st word w bkReq, true)

/-- The callback `wrap` passes to `eachWord` (lines 7228-7307).  `lastFlag`
is `last == null || last.required`. -/
def wrapCb (ww : List Char → ℕ) (st : WrapSt) (word : List Char) (w : ℕ)
    (bkReq : Bool) (lastFlag : Bool) : WrapSt × Bool :=
  let stA := cbAccum (cbStartLine st lastFlag) word w
  if bkReq ∨ w > stA.spaceLeft then
    cbBreak (cbEmit (cbEllipsis ww stA) word w bkReq) word w bkReq
  else ({ stA with spaceLeft := stA.spaceLeft - w }, true)

/-- The chopping loop of `eachWord` (lines 7136-7173) driven through the
wrap callback; the fuel models the source's unbounded `while`. -/
def chopLoop (ww : List Char → ℕ) :
    ℕ → WrapSt → List Char → Bool → Bool → WrapSt × Bool
  | 0, st, _, _, _ => (st, true)
  | fuel + 1, st, word, bkReq, lastFlag =>
      if word.length = 0 then (st, true)
      else
        match wrapCb ww st (word.take (fitPiece ww st.spaceLeft word))
            (ww (word.take (fitPiece ww st.spaceLeft word)))
            (bkReq || decide (fitPiece ww st.spaceLeft word < word.length))
            lastFlag with
        | (st', false) => (st', false)
        | (st', true) =>
            chopLoop ww fuel st' (word.drop (fitPiece ww st.spaceLeft word))
              bkReq false

/-- `eachWord` (lines 7117-7184): slice the text at the supplied break
positions, chop overlong words, and feed everything through the callback
until it declines. -/
def eachWordGo (ww : List Char → ℕ) (text : List Char) :
    List (ℕ × Bool) → ℕ → Bool → WrapSt → WrapSt
  | [], _, _, st => st
  | (pos, req) :: bks, prevPos, lastFlag, st =>
      if ww ((text.take pos).drop prevPos) > st.lineWidth + st.continuedX then
        match chopLoop ww (((text.take pos).drop prevPos).length + 1) st
            ((text.take pos).drop prevPos) req lastFlag with
        | (st', false) => st'
        | (st', true) => eachWordGo ww text bks pos req st'
      else
        match wrapCb ww st ((text.take pos).drop prevPos)
            (ww ((text.take pos).drop prevPos)) req lastFlag with
        | (st', false) => st'
        | (st', true) => eachWordGo ww text bks pos req st'

/-- The initialisation of `wrap`'s accumulation variables (lines 7209-7214). -/
def resetLineState (st : WrapSt) : WrapSt :=
  { st with buffer := [], textWidth := 0, wc := 0, lc := 0, savedY := st.docY }

/-- The closing bookkeeping of `wrap` (lines 7309-7327): flush a partial
line, then either carry the x position into the next continued fragment or
restore the starting x. -/
def wrapFinish (st : WrapSt) : WrapSt :=
  if st.continued then
    { st with
      continuedX := (if st.lc > 1 then 0 else st.continuedX) + st.lastTextWidth,
      docY := st.savedY }
  else
    { st with docX := st.startX }

/-- `wrap` (lines 7186-7328): orphan avoidance, the word loop, the final
flush of a partial line, and the closing bookkeeping. -/
def wrapModel (ww : List Char → ℕ) (text : List Char)
    (breaks : List (ℕ × Bool)) (st0 : WrapSt) : WrapSt :=
  let stO :=
    if st0.docY > st0.maxY ∨ st0.docY + st0.lh > st0.maxY then
      (wrapNextSection st0).1
    else st0
  let stW := eachWordGo ww text breaks 0 true (resetLineState stO)
  wrapFinish (if stW.wc > 0 then fireLine (fireLastLine stW) else stW)

/-- Repaint the document fill color — state that `wrap` carries but whose
value never reaches a line event. -/
def setFill (c : ℕ) (st : WrapSt) : WrapSt := { st with fillColor := c }

theorem fireFirstLine_setFill (c : ℕ) (st : WrapSt) :
    fireFirstLine (setFill c st) = setFill c (fireFirstLine st) := by
  dsimp only [fireFirstLine, setFill]

theorem fireLastLine_setFill (c : ℕ) (st : WrapSt) :
    fireLastLine (setFill c st) = setFill c (fireLastLine st) := by
  dsimp only [fireLastLine, setFill]

theorem fireLineEmit_setFill (c : ℕ) (st : WrapSt) :
    fireLineEmit (setFill c st) = setFill c (fireLineEmit st) := by
  cases st
  dsimp only [fireLineEmit, setFill]

theorem fireLineFirstUndo_setFill (c : ℕ) (st : WrapSt) :
    fireLineFirstUndo (setFill c st) = setFill c (fireLineFirstUndo st) := by
  cases st
  dsimp only [fireLineFirstUndo, setFill]
  repeat' split
  all_goals rfl

theorem fireLineLastRestore_setFill (c : ℕ) (st : WrapSt) :
    fireLineLastRestore (setFill c st) = setFill c (fireLineLastRestore st) := by
  cases st
  dsimp only [fireLineLastRestore, setFill]
  repeat' split
  all_goals rfl

theorem fireLine_setFill (c : ℕ) (st : WrapSt) :
    fireLine (setFill c st) = setFill c (fireLine st) := by
  unfold fireLine
  rw [fireLineEmit_setFill, fireLineFirstUndo_setFill, fireLineLastRestore_setFill]

theorem wrapNextSection_setFill (c : ℕ) (st : WrapSt) :
    wrapNextSection (setFill c st)
      = (setFill c (wrapNextSection st).1, (wrapNextSection st).2) := by
  dsimp only [wrapNextSection, setFill]
  repeat' split
  all_goals rfl

theorem cbStartLine_setFill (c : ℕ) (st : WrapSt) (lastFlag : Bool) :
    cbStartLine (setFill c st) lastFlag = setFill c (cbStartLine st lastFlag) := by
  dsimp only [cbStartLine, fireFirstLine, setFill]
  repeat' split
  all_goals rfl

theorem cbAccum_setFill (c : ℕ) (st : WrapSt) (word : List Char) (w : ℕ) :
    cbAccum (setFill c st) word w = setFill c (cbAccum st word w) := by
  dsimp only [cbAccum, setFill]
  repeat' split
  all_goals rfl

theorem cbEllipsis_setFill (ww : List Char → ℕ) (c : ℕ) (st : WrapSt) :
    cbEllipsis ww (setFill c st) = setFill c (cbEllipsis ww st) := by
  dsimp only [cbEllipsis, setFill]
  repeat' split
  all_goals rfl

theorem cbEmit_setFill (c : ℕ) (st : WrapSt) (word : List Char) (w : ℕ)
    (bkReq : Bool) :
    cbEmit (setFill c st) word w bkReq = setFill c (cbEmit st word w bkReq) := by
  unfold cbEmit
  dsimp only
  have hsl : (setFill c st).spaceLeft = st.spaceLeft := rfl
  rw [hsl]
  by_cases h : (bkReq = true) ∧ w > st.spaceLeft
  · rw [if_pos h, if_pos h, fireLine_setFill]
    have hupd : ({ setFill c (fireLine st) with
        buffer := word, textWidth := w, wc := 1 } : WrapSt)
        = setFill c { fireLine st with
            buffer := word, textWidth := w, wc := 1 } := rfl
    rw [hupd]
    rw [if_pos h.1, if_pos h.1, fireLastLine_setFill, fireLine_setFill]
  · rw [if_neg h, if_neg h]
    by_cases hb : bkReq = true
    · rw [if_pos hb, if_pos hb, fireLastLine_setFill, fireLine_setFill]
    · rw [if_neg hb, if_neg hb, fireLine_setFill]

theorem cbReset_setFill (c : ℕ) (st : WrapSt) (word : List Char) (w : ℕ)
    (bkReq : Bool) :
    cbReset (setFill c st) word w bkReq = setFill c (cbReset st word w bkReq) := by
  cases st
  dsimp only [cbReset, setFill]
  repeat' split
  all_goals rfl

theorem cbBreak_setFill (c : ℕ) (st : WrapSt) (word : List Char) (w : ℕ)
    (bkReq : Bool) :
    cbBreak (setFill c st) word w bkReq
      = (setFill c (cbBreak st word w bkReq).1, (cbBreak st word w bkReq).2) := by
  unfold cbBreak
  have h1 : (setFill c st).docY = st.docY := rfl
  have h2 : (setFill c st).lh = st.lh := rfl
  have h3 : (setFill c st).maxY = st.maxY := rfl
  rw [h1, h2, h3]
  by_cases h : st.docY + st.lh > st.maxY
  · rw [if_pos h, if_pos h, wrapNextSection_setFill]
    rcases hn : wrapNextSection st with ⟨st', b⟩
    cases b
    · dsimp only
      have hupd : ({ setFill c st' with wc := 0, buffer := [] } : WrapSt)
          = setFill c { st' with wc := 0, buffer := [] } := rfl
      rw [hupd]
    · dsimp only
      rw [cbReset_setFill]
  · rw [if_neg h, if_neg h, cbReset_setFill]

theorem wrapCb_setFill (ww : List Char → ℕ) (c : ℕ) (st : WrapSt)
    (word : List Char) (w : ℕ) (bkReq : Bool) (lastFlag : Bool) :
    wrapCb ww (setFill c st) word w bkReq lastFlag
      = (setFill c (wrapCb ww st word w bkReq lastFlag).1,
          (wrapCb ww st word w bkReq lastFlag).2) := by
  show wrapCb ww (setFill c st) word w bkReq lastFlag = _
  unfold wrapCb
  dsimp only
  rw [cbStartLine_setFill, cbAccum_setFill]
  have hsl : (setFill c (cbAccum (cbStartLine st lastFlag) word w)).spaceLeft
      = (cbAccum (cbStartLine st lastFlag) word w).spaceLeft := rfl
  rw [hsl]
  by_cases h : bkReq = true ∨ w > (cbAccum (cbStartLine st lastFlag) word w).spaceLeft
  · rw [if_pos h, if_pos h]
    rw [cbEllipsis_setFill, cbEmit_setFill, cbBreak_setFill]
  · rw [if_neg h, if_neg h]
    dsimp only [setFill]

theorem chopLoop_setFill (ww : List Char → ℕ) (c : ℕ) :
    ∀ (fuel : ℕ) (st : WrapSt) (word : List Char) (bkReq lastFlag : Bool),
      chopLoop ww fuel (setFill c st) word bkReq lastFlag
        = (setFill c (chopLoop ww fuel st word bkReq lastFlag).1,
            (chopLoop ww fuel st word bkReq lastFlag).2) := by
  intro fuel
  induction fuel with
  | zero => intro st word bkReq lastFlag; rfl
  | succ k ih =>
      intro st word bkReq lastFlag
      rw [chopLoop, chopLoop]
      by_cases hw : word.length = 0
      · rw [if_pos hw, if_pos hw]
      · rw [if_neg hw, if_neg hw]
        have hsl : (setFill c st).spaceLeft = st.spaceLeft := rfl
        rw [hsl, wrapCb_setFill]
        rcases hcb : wrapCb ww st (word.take (fitPiece ww st.spaceLeft word))
            (ww (word.take (fitPiece ww st.spaceLeft word)))
            (bkReq || decide (fitPiece ww st.spaceLeft word < word.length))
            lastFlag with ⟨st', b⟩
        cases b
        · rfl
        · exact ih st' (word.drop (fitPiece ww st.spaceLeft word)) bkReq false

theorem eachWordGo_setFill (ww : List Char → ℕ) (c : ℕ) (text : List Char) :
    ∀ (bks : List (ℕ × Bool)) (prevPos : ℕ) (lastFlag : Bool) (st : WrapSt),
      eachWordGo ww text bks prevPos lastFlag (setFill c st)
        = setFill c (eachWordGo ww text bks prevPos lastFlag st) := by
  intro bks
  induction bks with
  | nil => intro prevPos lastFlag st; rfl
  | cons bk rest ih =>
      intro prevPos lastFlag st
      rcases bk with ⟨pos, req⟩
      rw [eachWordGo, eachWordGo]
      have hlw : (setFill c st).lineWidth = st.lineWidth := rfl
      have hcx : (setFill c st).continuedX = st.continuedX := rfl
      rw [hlw, hcx]
      by_cases hover : ww ((text.take pos).drop prevPos)
          > st.lineWidth + st.continuedX
      · rw [if_pos hover, if_pos hover]
        rw [chopLoop_setFill]
        rcases hch : chopLoop ww (((text.take pos).drop prevPos).length + 1) st
            ((text.take pos).drop prevPos) req lastFlag with ⟨st', b⟩
        cases b
        · rfl
        · exact ih pos req st'
      · rw [if_neg hover, if_neg hover]
        rw [wrapCb_setFill]
        rcases hcb : wrapCb ww st ((text.take pos).drop prevPos)
            (ww ((text.take pos).drop prevPos)) req lastFlag with ⟨st', b⟩
        cases b
        · rfl
        · exact ih pos req st'

theorem resetLineState_setFill (c : ℕ) (st : WrapSt) :
    resetLineState (setFill c st) = setFill c (resetLineState st) := by
  cases st
  dsimp only [resetLineState, setFill]

theorem wrapFinish_setFill (c : ℕ) (st : WrapSt) :
    wrapFinish (setFill c st) = setFill c (wrapFinish st) := by
  cases st
  dsimp only [wrapFinish, setFill]
  repeat' split
  all_goals rfl

theorem wrapModel_setFill (ww : List Char → ℕ) (c : ℕ) (text : List Char)
    (breaks : List (ℕ × Bool)) (st : WrapSt) :
    wrapModel ww text breaks (setFill c st)
      = setFill c (wrapModel ww text breaks st) := by
  unfold wrapModel
  dsimp only
  have h1 : (setFill c st).docY = st.docY := rfl
  have h2 : (setFill c st).maxY = st.maxY := rfl
  have h3 : (setFill c st).lh = st.lh := rfl
  rw [h1, h2, h3]
  by_cases horphan : st.docY > st.maxY ∨ st.docY + st.lh > st.maxY
  · rw [if_pos horphan, if_pos horphan, wrapNextSection_setFill]
    dsimp only
    rw [resetLineState_setFill, eachWordGo_setFill]
    generalize eachWordGo ww text breaks 0 true
        (resetLineState (wrapNextSection st).1) = stW
    have hwc : (setFill c stW).wc = stW.wc := rfl
    rw [hwc]
    by_cases hw : stW.wc > 0
    · rw [if_pos hw, if_pos hw, fireLastLine_setFill, fireLine_setFill,
        wrapFinish_setFill]
    · rw [if_neg hw, if_neg hw, wrapFinish_setFill]
  · rw [if_neg horphan, if_neg horphan]
    rw [resetLineState_setFill, eachWordGo_setFill]
    generalize eachWordGo ww text breaks 0 true (resetLineState st) = stW
    have hwc : (setFill c stW).wc = stW.wc := rfl
    rw [hwc]
    by_cases hw : stW.wc > 0
    · rw [if_pos hw, if_pos hw, fireLastLine_setFill, fireLine_setFill,
        wrapFinish_setFill]
    · rw [if_neg hw, if_neg hw, wrapFinish_setFill]
/-- C9: wrapping is a pure function of the text, the break-opportunity and
width collaborators, and the wrapper's initial state — two runs with the
same inputs emit identical line-event sequences — and the document fill
color (state that `nextSection` re-applies but that never enters a line
event) does not influence the emitted events. -/
theorem wrap_line_events_deterministic :
    (∀ (ww ww' : List Char → ℕ) (text text' : List Char)
        (breaks breaks' : List (ℕ × Bool)) (st st' : WrapSt),
      ww = ww' → text = text' → breaks = breaks' → st = st' →
      (wrapModel ww text breaks st).events
        = (wrapModel ww' text' breaks' st').events) ∧
    (∀ (ww : List Char → ℕ) (text : List Char) (breaks : List (ℕ × Bool))
        (st : WrapSt) (c : ℕ),
      (wrapModel ww text breaks (setFill c st)).events
        = (wrapModel ww text breaks st).events) := by
  constructor
  · intro ww ww' text text' breaks breaks' st st' h1 h2 h3 h4
    subst h1
    subst h2
    subst h3
    subst h4
    rfl
  · intro ww text breaks st c
    rw [wrapModel_setFill]
    rfl

/-- A concrete wrapper state: one 100-unit column, no height bound, cursor
at the top left. -/
def sampleWrapSt : WrapSt :=
  { indent := 0, wordSpacing := 0, columns := 1, columnGap := 18,
    lineWidth := 100, spaceLeft := 100, startX := 10, startY := 10,
    column := 1, ellipsis := EllipsisOpt.off, continuedX := 0, height := none,
    maxY := 700, lastLine := false, docX := 10, docY := 10, fillColor := 0,
    pageTopY := 5, pageMaxY := 700, align := "left", continued := false,
    lineGap := 0, paragraphGap := 0, lastTextWidth := 0,
    pendingFirstIndent := none, pendingLast := false, savedAlign := "left",
    buffer := [], textWidth := 0, wc := 0, lc := 0, savedY := 10,
    events := [], lh := 12 }

/-- Witness for C9 at a concrete text, break sequence, width measure and
initial state, with two different fill colors. -/
theorem wrap_line_events_deterministic_witness :
    (wrapModel (fun u => u.length) ['h', 'i'] [(2, true)] sampleWrapSt).events
      = (wrapModel (fun u => u.length) ['h', 'i'] [(2, true)] sampleWrapSt).events ∧
    (wrapModel (fun u => u.length) ['h', 'i'] [(2, true)]
        (setFill 7 sampleWrapSt)).events
      = (wrapModel (fun u => u.length) ['h', 'i'] [(2, true)] sampleWrapSt).events :=
  ⟨wrap_line_events_deterministic.1 _ _ _ _ _ _ _ _ rfl rfl rfl rfl,
    wrap_line_events_deterministic.2 _ _ _ _ 7⟩

end PDFKit
